import Mathlib

/-!
# Collaborative objects: a shallow embedding of the `cob` crate

This file embeds the core of the `cob` crate of `radicle-link` — the
schema-validated CRDT wrapper (`validated_automerge.rs`), the change and
change-metadata value types (`change.rs`, `change_metadata.rs`), the change
graph reconstruction and evaluation (`change_graph.rs`), the staleness-aware
file-system cache (`cache.rs`) and the top-level operations (`lib.rs`) — and
proves properties of the embedded definitions.

Modelling conventions:

* git object ids (`git2::Oid`) are `Nat`; byte strings are `List Nat`.
* External collaborators (the automerge backend/frontend, the signature
  verifier, the identity resolver, JSON-schema validation, the delegation
  `eligible` computation) are fields of environment structures, universally
  quantified in the theorems.  The automerge frontend is observed through its
  JSON projection, which the source keeps synchronised with the backend by
  patch application; the model represents the projection as a function of the
  backend.  A failing `Backend::apply_changes` is modelled as leaving the
  backend unchanged.
* Fallible operations return `Except`/`Option`; methods on `&mut self` are
  state-passing functions returning the new state.
-/

namespace Cob

/-- Environment of automerge-backend operations (`automerge` crate, external
to the repository: `Backend::new/load/save/apply_changes`,
`Change::try_from`, the frontend JSON projection) together with JSON-schema
validation. Backends are opaque handles (`Nat`); serialised JSON values and
byte strings are `List Nat`. -/
structure AmEnv where
  newBackend : Nat
  decodeChange : List Nat → Option (List Nat)
  applyChanges : Nat → List Nat → Option Nat
  getValue : Nat → List Nat
  save : Nat → List Nat
  loadBackend : List Nat → Option Nat
  validate : List Nat → List Nat → Bool

/-- A parsed JSON schema, identified by its canonical byte serialisation
(`schema.rs` is not under `src/`; per the spec a `Schema` is "a parsed
JSON-Schema document plus its canonical byte serialization"). -/
structure Schema where
  jsonBytes : List Nat
deriving DecidableEq, Repr

/-- `History` (`lib.rs`): tagged CRDT byte payload, one variant. -/
inductive History where
  | automerge (bytes : List Nat)
deriving DecidableEq, Repr

/-- `History::as_bytes` (`lib.rs`). -/
def History.asBytes : History → List Nat
  | .automerge h => h

/-- `validated_automerge::error::ProposalError`. -/
inductive ProposalError where
  | invalidChange
  | invalidatesSchema
deriving DecidableEq, Repr

/-- `ValidatedAutomerge` (`validated_automerge.rs`): backend handle, the
frontend observed as its JSON projection, the schema, and the accumulated
bytes of every accepted change. -/
structure ValidatedAutomerge where
  backend : Nat
  frontendVal : List Nat
  schema : Schema
  validHistory : List Nat
deriving DecidableEq, Repr

namespace ValidatedAutomerge

/-- `ValidatedAutomerge::new`: fresh backend, fresh frontend, empty valid
history.  A fresh frontend shows the projection of the fresh backend. -/
def new (env : AmEnv) (schema : Schema) : ValidatedAutomerge :=
  { backend := env.newBackend
    frontendVal := env.getValue env.newBackend
    schema := schema
    validHistory := [] }

/-- `ValidatedAutomerge::new_with_history`: load a backend from the saved
history bytes; the frontend is rebuilt by applying the backend patch. -/
def newWithHistory (env : AmEnv) (schema : Schema) (history : List Nat) :
    Option ValidatedAutomerge :=
  match env.loadBackend history with
  | none => none
  | some b =>
      some { backend := b
             frontendVal := env.getValue b
             schema := schema
             validHistory := history }

/-- `ValidatedAutomerge::reset`: restore the saved backend and rebuild the
frontend from that backend's patch. -/
def reset (env : AmEnv) (va : ValidatedAutomerge) (oldBackend : Nat) :
    ValidatedAutomerge :=
  { va with backend := oldBackend, frontendVal := env.getValue oldBackend }

/-- `ValidatedAutomerge::propose_change`: decode the change, snapshot the
backend, apply, project, validate against the schema; on success append the
bytes to the valid history, on schema violation reset to the snapshot.
Returns the new state and the error, if any. -/
def proposeChange (env : AmEnv) (va : ValidatedAutomerge)
    (changeBytes : List Nat) : ValidatedAutomerge × Option ProposalError :=
  match env.decodeChange changeBytes with
  | none => (va, some .invalidChange)
  | some change =>
      let oldBackend := va.backend
      match env.applyChanges va.backend change with
      | none => (va, some .invalidChange)
      | some newBackend =>
          let value := env.getValue newBackend
          if env.validate va.schema.jsonBytes value then
            ({ va with backend := newBackend, frontendVal := value,
                       validHistory := va.validHistory ++ changeBytes }, none)
          else
            (va.reset env oldBackend, some .invalidatesSchema)

/-- `ValidatedAutomerge::valid_history`. -/
def validHistoryH (va : ValidatedAutomerge) : History :=
  .automerge va.validHistory

/-- `ValidatedAutomerge::compressed_valid_history`. -/
def compressedValidHistory (env : AmEnv) (va : ValidatedAutomerge) : History :=
  .automerge (env.save va.backend)

/-- `ValidatedAutomerge::raw`. -/
def raw (va : ValidatedAutomerge) : List Nat :=
  va.validHistory

/-- Modelled from the spec: `ValidatedAutomerge::state` (called by
`cache.rs` but absent from `src/validated_automerge.rs`) returns the JSON
projection of the document. -/
def state (va : ValidatedAutomerge) : List Nat :=
  va.frontendVal

/-- The representation invariant maintained by every constructor: the
frontend shows the projection of the backend. -/
def FrontendInv (env : AmEnv) (va : ValidatedAutomerge) : Prop :=
  va.frontendVal = env.getValue va.backend

end ValidatedAutomerge

/-- A concrete automerge environment for witnesses: applying a change bumps
the backend handle, the projection shows the handle, validation rejects
everything. -/
def rejectingAmEnv : AmEnv :=
  { newBackend := 0
    decodeChange := fun bs => some bs
    applyChanges := fun b _ => some (b + 1)
    getValue := fun b => [b]
    save := fun b => [b]
    loadBackend := fun _ => some 0
    validate := fun _ _ => false }

/-- A concrete automerge environment for witnesses: like `rejectingAmEnv`
but validation accepts everything. -/
def acceptingAmEnv : AmEnv :=
  { rejectingAmEnv with validate := fun _ _ => true }

/-- `Change` (`change.rs`): one node of the change graph.  The trailers
`X-Rad-Author`, `X-Rad-Schema` and `X-Rad-Containing-Identity` are
represented by the corresponding oid fields. -/
structure Change where
  commit : Nat
  revision : Nat
  authorCommit : Nat
  containingIdentityCommit : Nat
  schemaCommit : Nat
  typename : String
  history : History
  signatures : List (Nat × Nat)
deriving DecidableEq, Repr

/-- `Change::valid_signatures` (`change.rs`): loop over the signature set and
return `false` on the first pair that does not verify against the revision
(tree) id.  `verify` is the external signature-verification collaborator. -/
def Change.validSignatures (verify : Nat → Nat → Nat → Bool) (c : Change) :
    Bool :=
  c.signatures.all (fun p => verify p.1 p.2 c.revision)

/-- Association-list lookup keyed by oid (models `HashMap`/directory lookup;
insertion at the front shadows older entries). -/
def alistFind {α : Type} (l : List (Nat × α)) (k : Nat) : Option α :=
  match l with
  | [] => none
  | p :: rest => if p.1 = k then some p.2 else alistFind rest k

/-- `ThinChangeGraph` (`cache.rs`): the cacheable projection of an evaluated
change graph — optional live document, validated raw CRDT bytes, the tip
commit ids that produced them, the schema commit, the schema, and the JSON
state. -/
structure ThinChangeGraph where
  history : Option ValidatedAutomerge
  rawHistory : List Nat
  refs : Finset Nat
  schemaCommit : Nat
  schema : Schema
  state : List Nat
deriving DecidableEq

namespace ThinChangeGraph

/-- `ThinChangeGraph::new` (`cache.rs`): cache a freshly evaluated graph;
`raw_history` is the backend's compressed serialisation. -/
def new (env : AmEnv) (tips : Finset Nat) (schema : Schema)
    (schemaCommit : Nat) (history : ValidatedAutomerge) : ThinChangeGraph :=
  { history := some history
    rawHistory := (history.compressedValidHistory env).asBytes
    refs := tips
    schemaCommit := schemaCommit
    schema := schema
    state := history.state }

/-- `ThinChangeGraph::new_from_single_change` (`cache.rs`): like `new` with a
single tip. -/
def newFromSingleChange (env : AmEnv) (change : Nat) (schema : Schema)
    (schemaCommit : Nat) (history : ValidatedAutomerge) : ThinChangeGraph :=
  { history := some history
    rawHistory := (history.compressedValidHistory env).asBytes
    refs := {change}
    schemaCommit := schemaCommit
    schema := schema
    state := history.state }

/-- `ThinChangeGraph::history` (`cache.rs`). -/
def historyFn (g : ThinChangeGraph) : History :=
  match g.history with
  | some h => h.validHistoryH
  | none => .automerge g.rawHistory

/-- `ThinChangeGraph::raw` (`cache.rs`). -/
def rawFn (g : ThinChangeGraph) : List Nat :=
  match g.history with
  | some h => h.raw
  | none => g.rawHistory

/-- `ThinChangeGraph::tips` (`cache.rs`). -/
def tips (g : ThinChangeGraph) : Finset Nat :=
  g.refs

/-- `ThinChangeGraph::propose_change` (`cache.rs`): propose against the live
document, lazily rehydrating it from the raw history first if necessary.
`none` models the panic on the "unreachable" rehydration failure. -/
def proposeChange (env : AmEnv) (g : ThinChangeGraph) (bytes : List Nat) :
    Option (ThinChangeGraph × Option ProposalError) :=
  match g.history with
  | some h =>
      let (h2, err) := h.proposeChange env bytes
      some ({ g with history := some h2 }, err)
  | none =>
      match ValidatedAutomerge.newWithHistory env g.schema g.rawHistory with
      | none => none
      | some h =>
          let (h2, err) := h.proposeChange env bytes
          some ({ g with history := some h2 }, err)

/-- `ThinChangeGraph::update_ref` (`cache.rs`). -/
def updateRef (g : ThinChangeGraph) (previous : Option Nat) (new : Nat) :
    ThinChangeGraph :=
  let refs1 := match previous with
    | some p => g.refs.erase p
    | none => g.refs
  { g with refs := insert new refs1 }

end ThinChangeGraph

/-- One object's on-disk cache directory (`<object id>/` with `schema.json`,
`metadata.json`, `state.json`, `document`).  serde round-trips are modelled
as exact. -/
structure DiskEntry where
  schemaBytes : List Nat
  refs : Finset Nat
  schemaCommit : Nat
  stateBytes : List Nat
  document : List Nat
deriving DecidableEq

/-- `FileSystemCache` (`cache.rs`): on-disk directory plus the in-memory
LRU front (capacity 100, most recent first). -/
structure FileSystemCache where
  disk : List (Nat × DiskEntry)
  hotCache : List (Nat × ThinChangeGraph)

/-- `FileSystemCache::open`: fresh handle over a (possibly existing)
directory; the in-memory LRU starts empty. -/
def FileSystemCache.openOn (disk : List (Nat × DiskEntry)) :
    FileSystemCache :=
  { disk := disk, hotCache := [] }

/-- `lru::LruCache::put`: insert as most-recent, evicting beyond the
capacity of 100. -/
def lruPut (l : List (Nat × ThinChangeGraph)) (k : Nat)
    (v : ThinChangeGraph) : List (Nat × ThinChangeGraph) :=
  ((k, v) :: l.filter (fun p => p.1 ≠ k)).take 100

/-- `lru::LruCache::get`: on a hit, promote the entry to most-recent. -/
def lruGet (l : List (Nat × ThinChangeGraph)) (k : Nat) :
    Option ThinChangeGraph × List (Nat × ThinChangeGraph) :=
  match alistFind l k with
  | some v => (some v, (k, v) :: l.filter (fun p => p.1 ≠ k))
  | none => (none, l)

/-- `lru::LruCache::pop`: remove an entry. -/
def lruPop (l : List (Nat × ThinChangeGraph)) (k : Nat) :
    List (Nat × ThinChangeGraph) :=
  l.filter (fun p => p.1 ≠ k)

/-- `cache::Error`. -/
inductive CacheError where
  | io
  | schemaParse
  | serde
  | git
deriving DecidableEq, Repr

/-- Environment of the cache: availability of the object's lockfile at each
exclusive-creation attempt, and `Schema::try_from` over schema bytes
(`schema.rs` is not under `src/`). -/
structure CacheEnv where
  lockAvail : Nat → Bool
  parseSchema : List Nat → Option Schema

/-- The retry loop of `FileSystemCache::acquire_lock` (`cache.rs`): try to
create the lockfile exclusively; on failure bump the attempt counter, give
up with an error once it exceeds 20 (`attempts > 20`), otherwise sleep 100ms
and retry.  The source counts attempts upward; here the counter is
represented by the remaining attempt budget `21 - attempts`.  Returns the
index of the successful attempt. -/
def acquireLockAux (avail : Nat → Bool) (k : Nat) :
    (remaining : Nat) → Except Unit Nat
  | 0 => .error ()
  | r + 1 => if avail k then .ok k else acquireLockAux avail (k + 1) r

/-- `FileSystemCache::acquire_lock`: attempt counter starts at 0, so the
budget is 21 creation attempts.  The returned token models the `LockFile`
guard; its `Drop` impl removes the lock file when the guard goes out of
scope. -/
def acquireLock (avail : Nat → Bool) : Except Unit Nat :=
  acquireLockAux avail 0 21

/-- `FileSystemCache::load` (`cache.rs`): acquire the lock (propagating
failure), miss when the object's directory is absent; otherwise consult the
in-memory LRU first — a hit is returned only if its recorded tip set equals
`known_refs`, a stale hit is popped; on an in-memory miss read the four
files, rebuild a `ThinChangeGraph` with no live document, and return it
(inserting it into the LRU) only if its recorded tip set equals
`known_refs`. -/
def cacheLoad (env : CacheEnv) (c : FileSystemCache) (oid : Nat)
    (knownRefs : Finset Nat) :
    Except CacheError (Option ThinChangeGraph) × FileSystemCache :=
  match acquireLock env.lockAvail with
  | .error _ => (.error .io, c)
  | .ok _ =>
    match alistFind c.disk oid with
    | none => (.ok none, c)
    | some entry =>
      match alistFind c.hotCache oid with
      | some obj =>
          if knownRefs = obj.refs then
            (.ok (some obj), { c with hotCache := (lruGet c.hotCache oid).2 })
          else
            (.ok none, { c with hotCache := lruPop c.hotCache oid })
      | none =>
          match env.parseSchema entry.schemaBytes with
          | none => (.error .schemaParse, c)
          | some schema =>
              let thinGraph : ThinChangeGraph :=
                { history := none
                  rawHistory := entry.document
                  refs := entry.refs
                  schemaCommit := entry.schemaCommit
                  schema := schema
                  state := entry.stateBytes }
              if knownRefs = thinGraph.refs then
                (.ok (some thinGraph),
                  { c with hotCache := lruPut c.hotCache oid thinGraph })
              else
                (.ok none, c)

/-- `FileSystemCache::put` (`cache.rs`): the result of `acquire_lock` is
bound but not propagated (no `?`), so a lock-acquisition failure does not
stop the write; the four files are then written (schema, metadata, state,
document) and the graph is inserted into the in-memory LRU. -/
def cachePut (env : CacheEnv) (c : FileSystemCache) (oid : Nat)
    (g : ThinChangeGraph) : Except CacheError Unit × FileSystemCache :=
  let _lockfile := acquireLock env.lockAvail
  let entry : DiskEntry :=
    { schemaBytes := g.schema.jsonBytes
      refs := g.refs
      schemaCommit := g.schemaCommit
      stateBytes := g.state
      document := g.rawFn }
  (.ok (),
    { disk := (oid, entry) :: c.disk.filter (fun p => p.1 ≠ oid)
      hotCache := lruPut c.hotCache oid g })

/-- `NoOpCache::load`: always a miss. -/
def noOpCacheLoad (_oid : Nat) (_knownRefs : Finset Nat) :
    Except CacheError (Option ThinChangeGraph) :=
  .ok none

/-- `NoOpCache::put`: a no-op. -/
def noOpCachePut (_oid : Nat) (_g : ThinChangeGraph) :
    Except CacheError Unit :=
  .ok ()

/-- Witness environment for cache theorems: the lockfile is always free and
schema bytes parse back to the same schema. -/
def freeLockCacheEnv : CacheEnv :=
  { lockAvail := fun _ => true
    parseSchema := fun bs => some ⟨bs⟩ }

/-- Witness cache state: one disk entry for object 5 recorded with tip set
containing only commit 9, and a hot-cache entry recorded with tip 8. -/
def staleWitnessCache : FileSystemCache :=
  { disk := [(5, ⟨[], {9}, 3, [], []⟩)]
    hotCache := [(5, ⟨none, [], {8}, 3, ⟨[]⟩, []⟩)] }

/-- A concrete `ThinChangeGraph` for witnesses: no live document, tips 8
and 9. -/
def witnessThinGraph : ThinChangeGraph :=
  { history := none
    rawHistory := [1, 2]
    refs := {8, 9}
    schemaCommit := 3
    schema := ⟨[7]⟩
    state := [4] }

/-- A cache environment whose lockfile is never free (a crashed process
left `<object-id>.lock` behind). -/
def deadLockCacheEnv : CacheEnv :=
  { lockAvail := fun _ => false
    parseSchema := fun bs => some ⟨bs⟩ }

/-- A verified Person identity (external `link_identities` collaborator):
URN, public-key delegations, and the content id of its identity commit. -/
structure PersonData where
  urn : Nat
  delegations : List Nat
  contentId : Nat
deriving DecidableEq, Repr

/-- A verified Project identity (external collaborator): URN, delegation
structure (observed through `eligible`), content id. -/
structure ProjectData where
  urn : Nat
  delegations : List Nat
  contentId : Nat
deriving DecidableEq, Repr

/-- `Either<Person, Project>`. -/
inductive Identity where
  | person (p : PersonData)
  | project (pr : ProjectData)
deriving DecidableEq, Repr

/-- `identity_urn` (`lib.rs`). -/
def identityUrn : Identity → Nat
  | .person p => p.urn
  | .project pr => pr.urn

/-- `identity_oid` (`lib.rs`): the content id of the identity commit. -/
def identityOid : Identity → Nat
  | .person p => p.contentId
  | .project pr => pr.contentId

/-- `are_same_identity` (`change_graph.rs`): URN equality. -/
def areSameIdentity (left right : Identity) : Bool :=
  identityUrn left = identityUrn right

/-- `CollaborativeObject` (`lib.rs`). -/
structure CollaborativeObject where
  containingIdentity : Identity
  typename : String
  history : History
  id : Nat
  schema : Schema
deriving DecidableEq, Repr

/-- A git commit as seen by the `cob` crate: its tree (revision) and parent
ids.  Trailers and tree blobs are carried on the `Change` values directly. -/
structure CommitObj where
  tree : Nat
  parents : List Nat
deriving DecidableEq, Repr

/-- The git repository: stored commits and a fresh-oid counter standing in
for content hashing (every new object gets an id distinct from all ids
below the counter). -/
structure Repo where
  commits : List (Nat × CommitObj)
  nextOid : Nat
deriving DecidableEq, Repr

/-- Allocate a fresh object id (a written tree or commit). -/
def Repo.fresh (r : Repo) : Nat × Repo :=
  (r.nextOid, { r with nextOid := r.nextOid + 1 })

/-- `repo.find_commit`. -/
def Repo.findCommit (r : Repo) (oid : Nat) : Option CommitObj :=
  alistFind r.commits oid

/-- Store a new commit object. -/
def Repo.addCommit (r : Repo) (oid : Nat) (c : CommitObj) : Repo :=
  { r with commits := (oid, c) :: r.commits }

/-- `ChangeMetadata` (`change_metadata.rs`). -/
structure ChangeMetadata where
  commit : Nat
  revision : Nat
  signatures : List (Nat × Nat)
  authorCommit : Nat
deriving DecidableEq, Repr

/-- `ChangeMetadata::create` (`change_metadata.rs`): look up the author
identity commit and every tip commit, sign the revision (tree) id, then
create a commit whose parents are the tip commits followed by the author
identity commit, carrying the signatures and the `X-Rad-Author` trailer.
`sign` is the external signer. -/
def ChangeMetadata.create (sign : Nat → List (Nat × Nat)) (revision : Nat)
    (tips : List Nat) (authorIdentityCommit : Nat) (repo : Repo) :
    Option (ChangeMetadata × Repo) :=
  match repo.findCommit authorIdentityCommit with
  | none => none
  | some _ =>
      if tips.all (fun t => (repo.findCommit t).isSome) then
        let signatures := sign revision
        let parents := tips ++ [authorIdentityCommit]
        let (commit, repo1) := repo.fresh
        some (⟨commit, revision, signatures, authorIdentityCommit⟩,
          repo1.addCommit commit ⟨revision, parents⟩)
      else none

/-- `NewChangeSpec` (`change.rs`). -/
structure NewChangeSpec where
  schemaCommit : Nat
  typename : String
  tips : Option (List Nat)
  message : Option String
  history : History
deriving DecidableEq, Repr

/-- `Change::create` (`change.rs`): write the tree (`manifest.toml` +
`change` blob) giving the revision, extend the tip list with the schema
commit and the containing-identity commit, and create the metadata commit;
the schema and containing-identity trailers are carried as fields. -/
def Change.create (sign : Nat → List (Nat × Nat))
    (withinIdentityCommit authorIdentityCommit : Nat) (repo : Repo)
    (spec : NewChangeSpec) : Option (Change × Repo) :=
  let (revision, repo1) := repo.fresh
  let tips := (spec.tips.getD []) ++ [spec.schemaCommit, withinIdentityCommit]
  match ChangeMetadata.create sign revision tips authorIdentityCommit repo1 with
  | none => none
  | some (md, repo2) =>
      some ({ commit := md.commit
              revision := revision
              authorCommit := md.authorCommit
              containingIdentityCommit := withinIdentityCommit
              schemaCommit := spec.schemaCommit
              typename := spec.typename
              history := spec.history
              signatures := md.signatures }, repo2)

/-- `SchemaChange` (`schema_change.rs`), extended with the fields
`change_graph.rs` relies on.  Modelled from the spec: the
containing-identity commit and the signature set of a schema change
(`src/schema_change.rs` predates the five-argument `create` and the
`valid_signatures`/`containing_identity_commit` accessors that `lib.rs` and
`change_graph.rs` call). -/
structure SchemaChange where
  commit : Nat
  revision : Nat
  signatures : List (Nat × Nat)
  authorCommit : Nat
  containingIdentityCommit : Nat
  schema : Schema
deriving DecidableEq, Repr

/-- Modelled from the spec: the five-argument `SchemaChange::create` called
by `lib.rs` (absent from `src/schema_change.rs`): write the tree with the
canonical `schema.json` blob, then create the metadata commit with the
containing-identity commit as tip, mirroring `Change::create`. -/
def SchemaChange.create (sign : Nat → List (Nat × Nat))
    (withinIdentityCommit authorIdentityCommit : Nat) (repo : Repo)
    (schema : Schema) : Option (SchemaChange × Repo) :=
  let (revision, repo1) := repo.fresh
  match ChangeMetadata.create sign revision [withinIdentityCommit]
      authorIdentityCommit repo1 with
  | none => none
  | some (md, repo2) =>
      some ({ commit := md.commit
              revision := revision
              signatures := md.signatures
              authorCommit := md.authorCommit
              containingIdentityCommit := withinIdentityCommit
              schema := schema }, repo2)

/-- Modelled from the spec: `SchemaChange::valid_signatures` (called by
`change_graph.rs`, absent from `src/schema_change.rs`), analogous to
`Change::valid_signatures`. -/
def SchemaChange.validSignatures (verify : Nat → Nat → Nat → Bool)
    (sc : SchemaChange) : Bool :=
  sc.signatures.all (fun p => verify p.1 p.2 sc.revision)

/-- `GraphBuilder` (`change_graph.rs`): nodes in insertion order keyed by
commit id, and the parent→child edge list. -/
structure GraphBuilder where
  nodes : List (Nat × Change)
  edges : List (Nat × Nat)
deriving DecidableEq, Repr

/-- `GraphBuilder::has_edge`. -/
def GraphBuilder.hasEdge (b : GraphBuilder) (parentId childId : Nat) : Bool :=
  (alistFind b.nodes parentId).isSome && (alistFind b.nodes childId).isSome &&
    b.edges.contains (parentId, childId)

/-- `GraphBuilder::add_change` (`change_graph.rs`): insert the change as a
node if its commit is not yet present, and return as new pending edges
every parent of the commit that is not the author-identity, schema, or
containing-identity parent and for which the edge is not already present. -/
def GraphBuilder.addChange (b : GraphBuilder) (commitId : Nat)
    (commitParents : List Nat) (change : Change) :
    GraphBuilder × List (Nat × Nat) :=
  let authorCommit := change.authorCommit
  let schemaCommit := change.schemaCommit
  let containingIdentityCommit := change.containingIdentityCommit
  let b1 := if (alistFind b.nodes commitId).isSome then b
    else { b with nodes := b.nodes ++ [(commitId, change)] }
  let newEdges := commitParents.filter (fun p =>
    p ≠ authorCommit && p ≠ schemaCommit && p ≠ containingIdentityCommit &&
      !(b1.hasEdge p commitId))
  (b1, newEdges.map (fun p => (p, commitId)))

/-- `GraphBuilder::add_edge` (`change_graph.rs`): `update_edge` adds the
parent→child edge if not present.  The source panics when either node is
missing (a programmer-invariant violation); the embedded loader only calls
this with both nodes present, so that case is a no-op here. -/
def GraphBuilder.addEdge (b : GraphBuilder) (child parent : Nat) :
    GraphBuilder :=
  if (alistFind b.nodes child).isSome && (alistFind b.nodes parent).isSome then
    if b.edges.contains (parent, child) then b
    else { b with edges := b.edges ++ [(parent, child)] }
  else b

/-- A concrete signer for witnesses: a single key signing the revision. -/
def witSign : Nat → List (Nat × Nat) := fun r => [(100, r)]

/-- A concrete repository for witnesses: commits 1 (a previous tip),
2 (a schema change), 3 (a containing identity) and 4 (an author identity),
next fresh oid 10. -/
def witRepo : Repo :=
  ⟨[(1, ⟨0, []⟩), (2, ⟨0, []⟩), (3, ⟨0, []⟩), (4, ⟨0, []⟩)], 10⟩

/-- A concrete change spec for witnesses: schema commit 2, previous tip 1. -/
def witChangeSpec : NewChangeSpec := ⟨2, "t", some [1], none, .automerge []⟩

/-- `error::Create` (`lib.rs`). -/
inductive CreateError where
  | invalidAutomergeHistory
  | createSchemaChange
  | createChange
  | invalidSchema
  | refs
  | propose (e : ProposalError)
  | cache (e : CacheError)
  | io
deriving DecidableEq, Repr

/-- `NewObjectSpec` (`lib.rs`). -/
structure NewObjectSpec where
  schemaJson : List Nat
  history : History
  typename : String
  message : Option String
deriving DecidableEq, Repr

/-- `NewObjectSpec::change_spec` (`lib.rs`): no previous tips. -/
def NewObjectSpec.changeSpec (spec : NewObjectSpec) (schemaCommit : Nat) :
    NewChangeSpec :=
  { schemaCommit := schemaCommit
    typename := spec.typename
    tips := none
    message := spec.message
    history := spec.history }

/-- `create_object` (`lib.rs`): parse the schema, create the schema change,
validate the initial history against the schema, create the init change,
advance the object reference, and cache a `ThinChangeGraph` built by
`new_from_single_change` from `init_change.author_commit()` — note: the
author identity commit, not the init change's own commit.  `parseSchemaJson`
is `Schema::try_from`; `refsOk` is whether the external `RefsStorage`
accepts the reference update. -/
def createObject (am : AmEnv) (cenv : CacheEnv)
    (parseSchemaJson : List Nat → Option Schema) (refsOk : Bool)
    (sign : Nat → List (Nat × Nat)) (author : PersonData)
    (withinIdentity : Identity) (spec : NewObjectSpec) (repo : Repo)
    (cache : FileSystemCache) :
    Except CreateError (CollaborativeObject × Repo × FileSystemCache) :=
  match parseSchemaJson spec.schemaJson with
  | none => .error .invalidSchema
  | some schema =>
    match SchemaChange.create sign (identityOid withinIdentity)
        author.contentId repo schema with
    | none => .error .createSchemaChange
    | some (schemaChange, repo1) =>
      let va0 := ValidatedAutomerge.new am schema
      match va0.proposeChange am spec.history.asBytes with
      | (_, some e) => .error (.propose e)
      | (va1, none) =>
        match Change.create sign (identityOid withinIdentity)
            author.contentId repo1 (spec.changeSpec schemaChange.commit) with
        | none => .error .createChange
        | some (initChange, repo2) =>
          if refsOk then
            let thinGraph := ThinChangeGraph.newFromSingleChange am
              initChange.authorCommit schema initChange.schemaCommit va1
            let (r, cache1) := cachePut cenv cache initChange.commit thinGraph
            match r with
            | .error e => .error (.cache e)
            | .ok _ =>
                .ok ({ containingIdentity := withinIdentity
                       typename := spec.typename
                       history := spec.history
                       id := initChange.commit
                       schema := schema }, repo2, cache1)
          else .error .refs

/-- Concrete author for the `create_object` run: identity commit 4. -/
def witAuthor : PersonData := ⟨50, [], 4⟩

/-- Concrete containing identity for the `create_object` run: a person
whose identity commit is 3. -/
def witWithin : Identity := .person ⟨60, [], 3⟩

/-- Concrete new-object spec for the `create_object` run. -/
def witObjSpec : NewObjectSpec := ⟨[7], .automerge [9], "t", none⟩

/-- Concrete repository for the `create_object` run: the two identity
commits exist, fresh oids start at 10. -/
def witCreateRepo : Repo := ⟨[(3, ⟨0, []⟩), (4, ⟨0, []⟩)], 10⟩

/-- Environment of the change-graph evaluator: the identity resolver
(`Identities::some_identity`, which can fail, miss, or return a verified
Person/Project), the signature verifier, the delegation `eligible`
computation (all external collaborators), and the automerge environment. -/
structure EvalEnv where
  lookupRaw : Nat → Except Unit (Option Identity)
  verify : Nat → Nat → Nat → Bool
  eligible : List Nat → List Nat → Option (List Nat)
  am : AmEnv

/-- `is_maintainer` (`change_graph.rs`): the author's keys must be a
non-empty eligible set under the project's delegations. -/
def isMaintainer (env : EvalEnv) (project : ProjectData)
    (person : PersonData) : Bool :=
  match env.eligible project.delegations person.delegations with
  | some ks => !ks.isEmpty
  | none => false

/-- `IdentityCache::lookup_identity` (`identity_cache.rs`): always resolve
through the repository (the memo map is inserted into but never consulted),
propagating resolver errors and misses; a successful resolution is recorded
in the memo map. -/
def lookupIdentity (env : EvalEnv) (idc : List (Nat × Identity))
    (commit : Nat) : Except Unit (Option Identity) × List (Nat × Identity) :=
  match env.lookupRaw commit with
  | .error e => (.error e, idc)
  | .ok none => (.ok none, idc)
  | .ok (some id) =>
      (.ok (some id), (commit, id) :: idc.filter (fun p => p.1 ≠ commit))

/-- `ChangeGraph` (`change_graph.rs`): the reconstructed DAG — nodes in
insertion order keyed by commit id, parent→child edges, the object id, the
expected containing identity, and the schema change. -/
structure ChangeGraph where
  objectId : Nat
  containingIdentity : Identity
  nodes : List (Nat × Change)
  edges : List (Nat × Nat)
  schemaChange : SchemaChange
deriving DecidableEq

/-- Outgoing neighbours of a node (children along parent→child edges), in
edge insertion order. -/
def ChangeGraph.successors (g : ChangeGraph) (u : Nat) : List Nat :=
  (g.edges.filter (fun e => e.1 = u)).map (fun e => e.2)

/-- `externals(Incoming)`: the nodes with no incoming edge, in node index
order (which `roots.sort()` preserves). -/
def ChangeGraph.roots (g : ChangeGraph) : List Nat :=
  (g.nodes.filter (fun p => !(g.edges.any (fun e => e.2 = p.1)))).map
    (fun p => p.1)

/-- The commit ids carried by the graph's nodes. -/
def ChangeGraph.nodeKeys (g : ChangeGraph) : Finset Nat :=
  (g.nodes.map (fun p => p.1)).toFinset

/-- The traversal state of `ChangeGraph::evaluate`: the DFS discovered set,
the running `ValidatedAutomerge`, and the identity cache's memo map. -/
structure EvalSt where
  visited : Finset Nat
  va : ValidatedAutomerge
  idc : List (Nat × Identity)

/-- The `DfsEvent::Discover` handler of `ChangeGraph::evaluate`
(`change_graph.rs`): resolve the change's containing identity (prune on
failure or miss), check it matches the object's containing identity, check
the signatures, resolve the author (prune on a project author or a miss),
check the author is the person itself (person-scoped object) or a
maintainer (project-scoped), then propose the CRDT delta (prune on
rejection).  Returns the updated state and whether to continue into the
node's children. -/
def discover (env : EvalEnv) (containing : Identity) (change : Change)
    (st : EvalSt) : EvalSt × Bool :=
  match lookupIdentity env st.idc change.containingIdentityCommit with
  | (.ok (some changeIdentity), idc1) =>
      if !(areSameIdentity changeIdentity containing) then
        ({ st with idc := idc1 }, false)
      else if !(change.validSignatures env.verify) then
        ({ st with idc := idc1 }, false)
      else
        match lookupIdentity env idc1 change.authorCommit with
        | (r2, idc2) =>
          match (match r2 with | .ok o => o | .error _ => none) with
          | some (.person author) =>
              let authorOk := match changeIdentity with
                | .person p => decide (p.urn = author.urn)
                | .project pr => isMaintainer env pr author
              if !authorOk then ({ st with idc := idc2 }, false)
              else
                match change.history with
                | .automerge bytes =>
                    match st.va.proposeChange env.am bytes with
                    | (va2, none) =>
                        ({ st with idc := idc2, va := va2 }, true)
                    | (va2, some _) =>
                        ({ st with idc := idc2, va := va2 }, false)
          | some (.project _) => ({ st with idc := idc2 }, false)
          | none => ({ st with idc := idc2 }, false)
  | (_, idc1) => ({ st with idc := idc1 }, false)

mutual

/-- One step of the depth-first traversal of `ChangeGraph::evaluate`: skip
an already-discovered node, otherwise mark it discovered, run the
`Discover` handler, and on `Continue` traverse its children.  The fuel
argument bounds the recursion depth; each level consumes one fuel and marks
one fresh node, so `g.nodes.length` fuel is always enough. -/
def visitNode (env : EvalEnv) (g : ChangeGraph) :
    Nat → Nat → EvalSt → EvalSt
  | 0, _, st => st
  | fuel + 1, u, st =>
      if u ∈ st.visited then st
      else
        let st1 : EvalSt := { st with visited := insert u st.visited }
        match alistFind g.nodes u with
        | none => st1
        | some change =>
            match discover env g.containingIdentity change st1 with
            | (st2, true) => visitList env g fuel (g.successors u) st2
            | (st2, false) => st2

/-- Traverse a list of children in order. -/
def visitList (env : EvalEnv) (g : ChangeGraph) :
    Nat → List Nat → EvalSt → EvalSt
  | _, [], st => st
  | fuel, u :: rest, st =>
      visitList env g fuel rest (visitNode env g fuel u st)

end

/-- `ChangeGraph::evaluate` (`change_graph.rs`): start a fresh
`ValidatedAutomerge` from the schema, take the first sorted root, read the
typename from it, run the pruning DFS from it, and package the resulting
valid history as a `CollaborativeObject` together with the live document.
`none` models the `unwrap` panic on a rootless graph (ruled out by
`GraphBuilder::build`). -/
def ChangeGraph.evaluate (env : EvalEnv) (g : ChangeGraph)
    (idc0 : List (Nat × Identity)) :
    Option (CollaborativeObject × ValidatedAutomerge) :=
  match g.roots.head? with
  | none => none
  | some root =>
    match alistFind g.nodes root with
    | none => none
    | some rootChange =>
        let st0 : EvalSt :=
          { visited := ∅
            va := ValidatedAutomerge.new env.am g.schemaChange.schema
            idc := idc0 }
        let st := visitNode env g g.nodes.length root st0
        some ({ containingIdentity := g.containingIdentity
                typename := rootChange.typename
                history := st.va.validHistoryH
                id := g.objectId
                schema := g.schemaChange.schema }, st.va)

/-- The `Discover` handler's effect on the document and the prune decision,
as a function of the document alone: the identity-cache memo map is written
but never read, so resolution results do not depend on it. -/
def discoverCore (env : EvalEnv) (cont : Identity) (chg : Change)
    (va : ValidatedAutomerge) : ValidatedAutomerge × Bool :=
  match env.lookupRaw chg.containingIdentityCommit with
  | .ok (some changeIdentity) =>
      if !(areSameIdentity changeIdentity cont) then (va, false)
      else if !(chg.validSignatures env.verify) then (va, false)
      else
        match (match env.lookupRaw chg.authorCommit with
               | .ok o => o | .error _ => none) with
        | some (.person author) =>
            let authorOk := match changeIdentity with
              | .person p => decide (p.urn = author.urn)
              | .project pr => isMaintainer env pr author
            if !authorOk then (va, false)
            else
              match chg.history with
              | .automerge bytes =>
                  match va.proposeChange env.am bytes with
                  | (va2, none) => (va2, true)
                  | (va2, some _) => (va2, false)
        | some (.project _) => (va, false)
        | none => (va, false)
  | _ => (va, false)

/-- The state-independent ("static") checks of the `Discover` handler: the
containing identity resolves and matches, the signatures verify, and the
author resolves to an authorized person.  These depend only on the
environment, never on the traversal state. -/
def staticOk (env : EvalEnv) (cont : Identity) (chg : Change) : Bool :=
  match env.lookupRaw chg.containingIdentityCommit with
  | .ok (some changeIdentity) =>
      areSameIdentity changeIdentity cont &&
      chg.validSignatures env.verify &&
      (match (match env.lookupRaw chg.authorCommit with
              | .ok o => o | .error _ => none) with
       | some (.person author) =>
           (match changeIdentity with
            | .person p => decide (p.urn = author.urn)
            | .project pr => isMaintainer env pr author)
       | _ => false)
  | _ => false

/-- A node at which the `Discover` handler can never continue: the node is
missing from the graph, its static checks fail, or its delta is rejected in
every well-formed document state. -/
def AlwaysPrunedNode (env : EvalEnv) (g : ChangeGraph) (u : Nat) : Prop :=
  ∀ chg, alistFind g.nodes u = some chg →
    staticOk env g.containingIdentity chg = false ∨
    ∀ va : ValidatedAutomerge, va.FrontendInv env.am →
      (va.proposeChange env.am chg.history.asBytes).2 ≠ none

/-- A node that passes every check in every well-formed document state. -/
def AlwaysOkNode (env : EvalEnv) (g : ChangeGraph) (u : Nat) : Prop :=
  ∃ chg, alistFind g.nodes u = some chg ∧
    staticOk env g.containingIdentity chg = true ∧
    ∀ va : ValidatedAutomerge, va.FrontendInv env.am →
      (va.proposeChange env.am chg.history.asBytes).2 = none

/-- Reachability from `root` along graph edges through parents that are not
always pruned: the end node itself carries no requirement. -/
inductive ReachClean (env : EvalEnv) (g : ChangeGraph) (root : Nat) :
    Nat → Prop where
  | base : ReachClean env g root root
  | step {u v : Nat} : ReachClean env g root u →
      ¬ AlwaysPrunedNode env g u → (u, v) ∈ g.edges →
      ReachClean env g root v

/-- Reachability from `root` along a path every node of which (endpoints
included) passes every check in every well-formed state. -/
inductive ReachOk (env : EvalEnv) (g : ChangeGraph) (root : Nat) :
    Nat → Prop where
  | base : AlwaysOkNode env g root → ReachOk env g root root
  | step {u v : Nat} : ReachOk env g root u → AlwaysOkNode env g v →
      (u, v) ∈ g.edges → ReachOk env g root v

/-- Provenance of an evaluated history: every contributing change is a
graph node that has been discovered, passes all static checks, and has a
delta accepted in some state. -/
def ProvChain (env : EvalEnv) (g : ChangeGraph) (V : Finset Nat)
    (chain : List Change) : Prop :=
  ∀ c ∈ chain, (∃ u, alistFind g.nodes u = some c ∧ u ∈ V) ∧
    staticOk env g.containingIdentity c = true ∧
    ∃ va va2 : ValidatedAutomerge,
      va.proposeChange env.am c.history.asBytes = (va2, none)

/-- Closedness of the discovered set up to a pending set `E`: every
discovered node that passes every check has all its children discovered or
pending. -/
def ClosedExcept (env : EvalEnv) (g : ChangeGraph) (st : EvalSt)
    (E : Finset Nat) : Prop :=
  ∀ v ∈ st.visited, AlwaysOkNode env g v →
    ∀ w ∈ g.successors v, w ∈ st.visited ∨ w ∈ E

/-- The traversal state in which `ChangeGraph::evaluate` ends: the DFS run
from the first sorted root on a fresh document. -/
def evalFinalState (env : EvalEnv) (g : ChangeGraph)
    (idc0 : List (Nat × Identity)) (root : Nat) : EvalSt :=
  visitNode env g g.nodes.length root
    ⟨∅, ValidatedAutomerge.new env.am g.schemaChange.schema, idc0⟩

/-- Concrete root change for the evaluation witness. -/
def witRootChange : Change := ⟨1, 5, 4, 3, 11, "t", .automerge [9], []⟩

/-- Concrete evaluation environment for the witness: every commit resolves
to the same person identity, signatures verify, deltas are accepted. -/
def witEvalEnv : EvalEnv :=
  { lookupRaw := fun _ => .ok (some (.person ⟨60, [], 3⟩))
    verify := fun _ _ _ => true
    eligible := fun _ _ => some []
    am := acceptingAmEnv }

/-- Concrete one-node change graph for the evaluation witness. -/
def witGraph : ChangeGraph :=
  { objectId := 9
    containingIdentity := .person ⟨60, [], 3⟩
    nodes := [(1, witRootChange)]
    edges := []
    schemaChange := ⟨11, 10, [], 4, 3, ⟨[7]⟩⟩ }

/-- `change_graph::Error`. -/
inductive ChangeGraphError where
  | missingRevision
  | git
  | loadSchema
  | schemaContainingUrnIncorrect
  | noSchemaContainingIdentityFound
  | invalidSchemaSignatures
  | identityCache
deriving DecidableEq, Repr

/-- The first node with no incoming edge (`externals(Incoming).next()`),
in node index order. -/
def GraphBuilder.firstExternal (b : GraphBuilder) : Option (Nat × Change) :=
  (b.nodes.filter (fun p => !(b.edges.any (fun e => e.2 = p.1)))).head?

/-- `GraphBuilder::build` (`change_graph.rs`): with no root the object does
not exist (`Ok(None)`, not an error); otherwise load the schema change from
the root's schema commit, check its signatures and that its containing
identity resolves and matches, and assemble the `ChangeGraph`.
`loadSchemaChange` wraps `SchemaChange::load`, whose git-level tree/blob
parsing is external to this model. -/
def GraphBuilder.build (env : EvalEnv)
    (loadSchemaChange : Nat → Except Unit SchemaChange) (b : GraphBuilder)
    (objectId : Nat) (withinIdentity : Identity)
    (idc : List (Nat × Identity)) :
    Except ChangeGraphError (Option ChangeGraph) ×
      List (Nat × Identity) :=
  match b.firstExternal with
  | none => (.ok none, idc)
  | some (_, rootChange) =>
      match loadSchemaChange rootChange.schemaCommit with
      | .error _ => (.error .loadSchema, idc)
      | .ok schemaChange =>
          if !(schemaChange.validSignatures env.verify) then
            (.error .invalidSchemaSignatures, idc)
          else
            match lookupIdentity env idc
                schemaChange.containingIdentityCommit with
            | (.error _, idc1) => (.error .identityCache, idc1)
            | (.ok none, idc1) =>
                (.error .noSchemaContainingIdentityFound, idc1)
            | (.ok (some schemaContaining), idc1) =>
                if !(areSameIdentity schemaContaining withinIdentity) then
                  (.error .schemaContainingUrnIncorrect, idc1)
                else
                  (.ok (some { objectId := objectId
                               containingIdentity := withinIdentity
                               nodes := b.nodes
                               edges := b.edges
                               schemaChange := schemaChange }), idc1)

/-- The initial loop of `ChangeGraph::load`: peel each tip reference to a
commit (a peel failure is a git error), try to load a `Change` from it — a
commit that fails to parse is dropped with a warning — and collect the
pending edges.  `loadChange` wraps `Change::load`, whose git-level
manifest/trailer parsing is external to this model. -/
def changeGraphInitLoop (loadChange : Repo → Nat → Except Unit Change)
    (repo : Repo) :
    List Nat → GraphBuilder → List (Nat × Nat) →
      Except Unit (GraphBuilder × List (Nat × Nat))
  | [], b, w => .ok (b, w)
  | t :: rest, b, w =>
      match repo.findCommit t with
      | none => .error ()
      | some commitObj =>
          match loadChange repo t with
          | .error _ => changeGraphInitLoop loadChange repo rest b w
          | .ok change =>
              let (b1, newEdges) := b.addChange t commitObj.parents change
              changeGraphInitLoop loadChange repo rest b1 (w ++ newEdges)

/-- The worklist loop of `ChangeGraph::load`: pop a pending
`(parent, child)` edge from the end of the vector, try to load the parent
as a `Change` (dropping it with a warning on failure), insert it, add the
edge, and push its own pending edges.  The source's termination argument is
the `has_edge` deduplication; here the loop carries fuel, which the
developments below never exhaust. -/
def changeGraphLoadLoop (loadChange : Repo → Nat → Except Unit Change)
    (repo : Repo) :
    Nat → GraphBuilder → List (Nat × Nat) → GraphBuilder
  | 0, b, _ => b
  | fuel + 1, b, w =>
      match w.getLast? with
      | none => b
      | some (parentId, childId) =>
          let w1 := w.dropLast
          match loadChange repo parentId with
          | .error _ => changeGraphLoadLoop loadChange repo fuel b w1
          | .ok change =>
              let parents :=
                ((repo.findCommit parentId).map
                  (fun c => c.parents)).getD []
              let (b1, newEdges) := b.addChange parentId parents change
              let b2 := b1.addEdge childId parentId
              changeGraphLoadLoop loadChange repo fuel b2 (w1 ++ newEdges)

/-- `ChangeGraph::load` (`change_graph.rs`): seed the builder from the tip
references, process pending edges until none remain, then `build`. -/
def ChangeGraph.load (env : EvalEnv)
    (loadChange : Repo → Nat → Except Unit Change)
    (loadSchemaChange : Nat → Except Unit SchemaChange)
    (idc : List (Nat × Identity)) (tipRefs : List Nat) (repo : Repo)
    (withinIdentity : Identity) (objectId : Nat) :
    Except ChangeGraphError (Option ChangeGraph) ×
      List (Nat × Identity) :=
  match changeGraphInitLoop loadChange repo tipRefs ⟨[], []⟩ [] with
  | .error _ => (.error .git, idc)
  | .ok (b, w) =>
      let b2 := changeGraphLoadLoop loadChange repo
        ((repo.commits.length + 1) * (repo.commits.length + 1)) b w
      GraphBuilder.build env loadSchemaChange b2 objectId withinIdentity idc

/-- `error::Retrieve` (`lib.rs`). -/
inductive RetrieveError where
  | changeGraph (e : ChangeGraphError)
  | git
  | refs
  | cache (e : CacheError)
  | io
deriving DecidableEq, Repr

/-- `error::Update` (`lib.rs`). -/
inductive UpdateError where
  | changeGraph (e : ChangeGraphError)
  | noSuchObject
  | createChange
  | refs
  | cache (e : CacheError)
  | git
  | propose (e : ProposalError)
  | io
deriving DecidableEq, Repr

/-- `UpdateObjectSpec` (`lib.rs`). -/
structure UpdateObjectSpec where
  objectId : Nat
  typename : String
  message : Option String
  changes : History
deriving DecidableEq, Repr

/-- `retrieve_object` (`lib.rs`): peel the tip references, try the cache,
and on a miss rebuild and evaluate the change graph, re-caching the result;
an object with no change graph is `Ok(None)`.  The outer `Option` is
`none` only for the `unwrap` panic inside `evaluate` (unreachable, since
`build` guarantees a root). -/
def retrieveObject (env : EvalEnv) (cenv : CacheEnv)
    (loadChange : Repo → Nat → Except Unit Change)
    (loadSchemaChange : Nat → Except Unit SchemaChange)
    (refsList : List Nat) (repo : Repo) (withinIdentity : Identity)
    (typename : String) (oid : Nat) (cache : FileSystemCache) :
    Option (Except RetrieveError (Option CollaborativeObject) ×
      FileSystemCache) :=
  if !(refsList.all (fun r => (repo.findCommit r).isSome)) then
    some (.error .git, cache)
  else
    let tipOids : Finset Nat := refsList.toFinset
    match cacheLoad cenv cache oid tipOids with
    | (.error e, c1) => some (.error (.cache e), c1)
    | (.ok (some obj), c1) =>
        some (.ok (some { containingIdentity := withinIdentity
                          typename := typename
                          history := obj.historyFn
                          id := oid
                          schema := obj.schema }), c1)
    | (.ok none, c1) =>
        match ChangeGraph.load env loadChange loadSchemaChange [] refsList
            repo withinIdentity oid with
        | (.error e, _) => some (.error (.changeGraph e), c1)
        | (.ok none, _) => some (.ok none, c1)
        | (.ok (some graph), idc1) =>
            match graph.evaluate env idc1 with
            | none => none
            | some (object, validHistory) =>
                let cached := ThinChangeGraph.new env.am tipOids
                  graph.schemaChange.schema graph.schemaChange.commit
                  validHistory
                let (r, c2) := cachePut cenv c1 oid cached
                match r with
                | .error e => some (.error (.cache e), c2)
                | .ok _ => some (.ok (some object), c2)

/-- `update_object` (`lib.rs`): resolve the object through the cache or by
rebuilding the change graph — an empty graph is the `NoSuchObject`
**error** —, propose the new change against the cached document, create the
change commit with the cached tips as previous tips, update the cached tip
set and the reference storage, and return the updated object.  The outer
`Option` is `none` for the panics (`evaluate`'s root unwrap and
`ThinChangeGraph::propose_change`'s rehydration unwrap). -/
def updateObject (env : EvalEnv) (cenv : CacheEnv)
    (loadChange : Repo → Nat → Except Unit Change)
    (loadSchemaChange : Nat → Except Unit SchemaChange)
    (sign : Nat → List (Nat × Nat)) (author : PersonData)
    (withinIdentity : Identity) (spec : UpdateObjectSpec)
    (refsList : List Nat) (localRef : Option Nat) (refsOk : Bool)
    (repo : Repo) (cache : FileSystemCache) :
    Option (Except UpdateError CollaborativeObject × Repo ×
      FileSystemCache) :=
  if !(refsList.all (fun r => (repo.findCommit r).isSome)) then
    some (.error .git, repo, cache)
  else
    let tipOids : Finset Nat := refsList.toFinset
    let step2 : FileSystemCache → ThinChangeGraph →
        Option (Except UpdateError CollaborativeObject × Repo ×
          FileSystemCache) := fun c1 cached =>
      match cached.proposeChange env.am spec.changes.asBytes with
      | none => none
      | some (_, some e) => some (.error (.propose e), repo, c1)
      | some (cached2, none) =>
          match Change.create sign (identityOid withinIdentity)
              author.contentId repo
              { schemaCommit := cached2.schemaCommit
                typename := spec.typename
                tips := some (cached2.tips.sort (· ≤ ·))
                message := spec.message
                history := spec.changes } with
          | none => some (.error .createChange, repo, c1)
          | some (change, repo1) =>
              match localRef with
              | some l =>
                  if (repo.findCommit l).isSome then
                    let cached3 := cached2.updateRef (some l) change.commit
                    let (_, c2) := cachePut cenv c1 spec.objectId cached3
                    if refsOk then
                      some (.ok { containingIdentity := withinIdentity
                                  typename := spec.typename
                                  history := cached3.historyFn
                                  id := spec.objectId
                                  schema := cached3.schema }, repo1, c2)
                    else some (.error .refs, repo1, c2)
                  else some (.error .git, repo1, c1)
              | none =>
                  let cached3 := cached2.updateRef none change.commit
                  let (_, c2) := cachePut cenv c1 spec.objectId cached3
                  if refsOk then
                    some (.ok { containingIdentity := withinIdentity
                                typename := spec.typename
                                history := cached3.historyFn
                                id := spec.objectId
                                schema := cached3.schema }, repo1, c2)
                  else some (.error .refs, repo1, c2)
    match cacheLoad cenv cache spec.objectId tipOids with
    | (.error e, c1) => some (.error (.cache e), repo, c1)
    | (.ok (some cached), c1) => step2 c1 cached
    | (.ok none, c1) =>
        match ChangeGraph.load env loadChange loadSchemaChange [] refsList
            repo withinIdentity spec.objectId with
        | (.error e, _) => some (.error (.changeGraph e), repo, c1)
        | (.ok none, _) => some (.error .noSuchObject, repo, c1)
        | (.ok (some graph), idc1) =>
            match graph.evaluate env idc1 with
            | none => none
            | some (_, validHistory) =>
                let cached := ThinChangeGraph.new env.am tipOids
                  graph.schemaChange.schema graph.schemaChange.commit
                  validHistory
                let (r, c2) := cachePut cenv c1 spec.objectId cached
                match r with
                | .error e => some (.error (.cache e), repo, c2)
                | .ok _ => step2 c2 cached

/-- Rollback core: a rejected proposal returns exactly the input state,
given the frontend invariant. -/
theorem proposeChange_rollback_helper (env : AmEnv)
    (va va2 : ValidatedAutomerge) (bytes : List Nat) (err : ProposalError)
    (hinv : va.FrontendInv env)
    (hrun : va.proposeChange env bytes = (va2, some err)) :
    va2 = va := by
  simp only [ValidatedAutomerge.proposeChange] at hrun
  split at hrun
  · exact ((Prod.mk.injEq _ _ _ _).mp hrun).1.symm
  · split at hrun
    · exact ((Prod.mk.injEq _ _ _ _).mp hrun).1.symm
    · split at hrun
      · exact absurd ((Prod.mk.injEq _ _ _ _).mp hrun).2 (by simp)
      · have h1 := ((Prod.mk.injEq _ _ _ _).mp hrun).1
        rw [← h1]
        unfold ValidatedAutomerge.reset
        simp only [ValidatedAutomerge.FrontendInv] at hinv
        cases va with
        | mk b f s vh => simp_all

/-- C3: if `propose_change` rejects a proposal (malformed delta or schema
violation), the returned document state — backend, JSON projection and
accumulated valid-history bytes — is exactly the state before the call;
no partial mutation is observable.  The hypothesis is the representation
invariant (frontend = projection of backend) that every constructor
establishes. -/
theorem proposeChange_rejected_is_rollback (env : AmEnv)
    (va va2 : ValidatedAutomerge) (bytes : List Nat) (err : ProposalError)
    (hinv : va.FrontendInv env)
    (hrun : va.proposeChange env bytes = (va2, some err)) :
    va2 = va :=
  proposeChange_rollback_helper env va va2 bytes err hinv hrun

/-- Witness for C3: with the always-rejecting environment a concrete
proposal is rejected and the state rolls back exactly. -/
theorem proposeChange_rejected_is_rollback_witness :
    ((ValidatedAutomerge.new rejectingAmEnv ⟨[]⟩).proposeChange
        rejectingAmEnv [1]).1 = ValidatedAutomerge.new rejectingAmEnv ⟨[]⟩ :=
  proposeChange_rejected_is_rollback rejectingAmEnv
    (ValidatedAutomerge.new rejectingAmEnv ⟨[]⟩) _ [1] .invalidatesSchema
    rfl rfl

/-- C10: `valid_signatures` returns `true` iff every `(key, signature)` pair
in the change's signature set verifies against the revision (tree) id; in
particular a change with an empty signature set passes vacuously. -/
theorem validSignatures_iff_all_verify (verify : Nat → Nat → Nat → Bool)
    (c : Change) :
    (c.validSignatures verify = true ↔
      ∀ p ∈ c.signatures, verify p.1 p.2 c.revision = true) ∧
    (c.signatures = [] → c.validSignatures verify = true) := by
  constructor
  · simp [Change.validSignatures, List.all_eq_true]
  · intro h
    simp [Change.validSignatures, h]

/-- Witness for C10: a change carrying no signatures at all passes the
signature-validity check even when the verifier rejects everything. -/
theorem validSignatures_iff_all_verify_witness :
    Change.validSignatures (fun _ _ _ => false)
      ⟨0, 1, 2, 3, 4, "x", .automerge [], []⟩ = true :=
  (validSignatures_iff_all_verify (fun _ _ _ => false)
      ⟨0, 1, 2, 3, 4, "x", .automerge [], []⟩).2 rfl

/-- Looking up a key in a list from which all pairs with that key were
filtered out yields nothing. -/
theorem alistFind_filter_ne {α : Type} (l : List (Nat × α)) (k : Nat) :
    alistFind (l.filter (fun p => p.1 ≠ k)) k = none := by
  induction l with
  | nil => rfl
  | cons p rest ih =>
      simp only [List.filter_cons, ne_eq, decide_not] at ih ⊢
      by_cases h : p.1 = k
      · simpa [h] using ih
      · simpa [alistFind, h] using ih

/-- `History.automerge` of `raw()` is exactly `history()`. -/
theorem ThinChangeGraph.automerge_rawFn (g : ThinChangeGraph) :
    History.automerge g.rawFn = g.historyFn := by
  cases hg : g.history <;>
    simp [ThinChangeGraph.rawFn, ThinChangeGraph.historyFn, hg,
      ValidatedAutomerge.raw, ValidatedAutomerge.validHistoryH]

/-- C2: `load(id, refs)` (a) returns `Some g` only if the object's cache
directory exists and `g`'s recorded tip set equals `refs` exactly; (b)
returns `None` when the directory is absent; (c) on a stale in-memory
(hot-cache) hit it returns `None` and pops the stale entry from the
in-memory cache, so that entry cannot be returned again. -/
theorem cacheLoad_staleness (env : CacheEnv) (c : FileSystemCache)
    (oid : Nat) (knownRefs : Finset Nat) :
    (∀ g, (cacheLoad env c oid knownRefs).1 = .ok (some g) →
        g.refs = knownRefs ∧ (alistFind c.disk oid).isSome = true) ∧
    (∀ t, acquireLock env.lockAvail = .ok t →
        alistFind c.disk oid = none →
        (cacheLoad env c oid knownRefs).1 = .ok none) ∧
    (∀ t g, acquireLock env.lockAvail = .ok t →
        alistFind c.hotCache oid = some g → g.refs ≠ knownRefs →
        (alistFind c.disk oid).isSome = true →
        (cacheLoad env c oid knownRefs).1 = .ok none ∧
        alistFind (cacheLoad env c oid knownRefs).2.hotCache oid = none) := by
  refine ⟨?_, ?_, ?_⟩
  · intro g hg
    cases hacq : acquireLock env.lockAvail with
    | error e => simp [cacheLoad, hacq] at hg
    | ok t =>
      cases hdisk : alistFind c.disk oid with
      | none => simp [cacheLoad, hacq, hdisk] at hg
      | some entry =>
        cases hhot : alistFind c.hotCache oid with
        | some obj =>
            by_cases href : knownRefs = obj.refs
            · simp only [cacheLoad, hacq, hdisk, hhot, href, if_pos,
                Except.ok.injEq, Option.some.injEq] at hg
              subst hg
              simp [hdisk, href]
            · simp [cacheLoad, hacq, hdisk, hhot, href] at hg
        | none =>
            cases hps : env.parseSchema entry.schemaBytes with
            | none => simp [cacheLoad, hacq, hdisk, hhot, hps] at hg
            | some s =>
                by_cases href : knownRefs = entry.refs
                · simp only [cacheLoad, hacq, hdisk, hhot, hps, href, if_pos,
                    Except.ok.injEq, Option.some.injEq] at hg
                  subst hg
                  simp [hdisk, href]
                · simp [cacheLoad, hacq, hdisk, hhot, hps, href] at hg
  · intro t hacq hdisk
    simp [cacheLoad, hacq, hdisk]
  · intro t g hacq hhot href hdisk
    cases hdiskv : alistFind c.disk oid with
    | none => simp [hdiskv] at hdisk
    | some entry =>
        have hne : ¬ knownRefs = g.refs := fun h => href h.symm
        constructor
        · simp [cacheLoad, hacq, hdiskv, hhot, hne]
        · simp only [cacheLoad, hacq, hdiskv, hhot, hne, if_neg]
          simpa [lruPop] using alistFind_filter_ne c.hotCache oid

/-- Witness for C2: at the concrete stale state, a load with tip set
containing only 9 returns `None` and pops the stale hot entry. -/
theorem cacheLoad_staleness_witness :
    (cacheLoad freeLockCacheEnv staleWitnessCache 5 {9}).1 = .ok none ∧
    alistFind (cacheLoad freeLockCacheEnv staleWitnessCache 5 {9}).2.hotCache
      5 = none :=
  (cacheLoad_staleness freeLockCacheEnv staleWitnessCache 5 {9}).2.2 0
    ⟨none, [], {8}, 3, ⟨[]⟩, []⟩ rfl rfl (by decide) rfl

/-- C6: after a successful `put(id, g)`, a `load(id, refs)` with `refs`
equal to `g`'s tip set succeeds: within the same process the identical
graph is returned from the in-memory cache, and a fresh process reading the
same disk (empty in-memory cache) gets a `ThinChangeGraph` whose
`history()`, `schema()` and `tips()` equal those of `g`.  Hypotheses: lock
acquisition succeeds and `Schema::try_from` inverts the schema's canonical
serialisation. -/
theorem cachePut_cacheLoad_roundtrip (env : CacheEnv) (c : FileSystemCache)
    (oid : Nat) (g : ThinChangeGraph) (t : Nat)
    (hlock : acquireLock env.lockAvail = .ok t)
    (hschema : env.parseSchema g.schema.jsonBytes = some g.schema) :
    (cacheLoad env (cachePut env c oid g).2 oid g.tips).1 = .ok (some g) ∧
    (∃ g2,
      (cacheLoad env (FileSystemCache.openOn (cachePut env c oid g).2.disk)
          oid g.tips).1 = .ok (some g2) ∧
      g2.historyFn = g.historyFn ∧ g2.schema = g.schema ∧
      g2.tips = g.tips) := by
  have hdisk : alistFind (cachePut env c oid g).2.disk oid =
      some ⟨g.schema.jsonBytes, g.refs, g.schemaCommit, g.state, g.rawFn⟩ := by
    simp [cachePut, alistFind]
  have hhot : alistFind (cachePut env c oid g).2.hotCache oid = some g := by
    simp [cachePut, lruPut, alistFind]
  constructor
  · simp [cacheLoad, hlock, hdisk, hhot, ThinChangeGraph.tips]
  · refine ⟨⟨none, g.rawFn, g.refs, g.schemaCommit, g.schema, g.state⟩,
      ?_, ?_, rfl, rfl⟩
    · have hfresh : alistFind
          (FileSystemCache.openOn (cachePut env c oid g).2.disk).hotCache
          oid = none := rfl
      simp [cacheLoad, hlock, FileSystemCache.openOn, hdisk, hfresh, hschema,
        ThinChangeGraph.tips, alistFind]
    · simpa [ThinChangeGraph.historyFn] using ThinChangeGraph.automerge_rawFn g

/-- Witness for C6: a concrete put/load round trip through an empty cache
returns the stored graph both from memory and from disk. -/
theorem cachePut_cacheLoad_roundtrip_witness :
    (cacheLoad freeLockCacheEnv
        (cachePut freeLockCacheEnv (FileSystemCache.openOn []) 5
          witnessThinGraph).2 5 witnessThinGraph.tips).1 =
      .ok (some witnessThinGraph) ∧
    (∃ g2,
      (cacheLoad freeLockCacheEnv
          (FileSystemCache.openOn
            (cachePut freeLockCacheEnv (FileSystemCache.openOn []) 5
              witnessThinGraph).2.disk) 5 witnessThinGraph.tips).1 =
        .ok (some g2) ∧
      g2.historyFn = witnessThinGraph.historyFn ∧
      g2.schema = witnessThinGraph.schema ∧
      g2.tips = witnessThinGraph.tips) :=
  cachePut_cacheLoad_roundtrip freeLockCacheEnv (FileSystemCache.openOn [])
    5 witnessThinGraph 0 rfl rfl

/-- C4 (code bug): lock acquisition is bounded — it succeeds if some of the
first 21 exclusive-creation attempts succeeds (here the 21st) and fails
hard after 21 failed attempts — and `load` propagates that failure as an
error; but `put` binds the `Result` of `acquire_lock` without `?`, so after
the same failure it does not fail: it writes the object's files with no
lock held and returns `Ok`, contradicting the claim that the operation
fails rather than proceeding. -/
theorem cachePut_proceeds_despite_lock_failure :
    acquireLock (fun n => decide (20 ≤ n)) = .ok 20 ∧
    acquireLock (fun _ => false) = .error () ∧
    (cacheLoad deadLockCacheEnv (FileSystemCache.openOn []) 7 ∅).1 =
      .error .io ∧
    (cachePut deadLockCacheEnv (FileSystemCache.openOn []) 7
        witnessThinGraph).1 = .ok () ∧
    alistFind (cachePut deadLockCacheEnv (FileSystemCache.openOn []) 7
        witnessThinGraph).2.disk 7 =
      some ⟨witnessThinGraph.schema.jsonBytes, witnessThinGraph.refs,
        witnessThinGraph.schemaCommit, witnessThinGraph.state,
        witnessThinGraph.rawFn⟩ := by
  refine ⟨rfl, rfl, ?_, rfl, ?_⟩
  · simp [cacheLoad, acquireLock, acquireLockAux, deadLockCacheEnv]
  · simp [cachePut, alistFind]

/-- Adding a change created with parents `tips ++ [schema, containing,
author]` to a builder with no edges yields pending graph edges for exactly
the tip parents: the three metadata parents are excluded. -/
theorem GraphBuilder.addChange_tip_edges (b : GraphBuilder) (cid : Nat)
    (tips : List Nat) (chg : Change) (hedges : b.edges = [])
    (hauthor : chg.authorCommit ∉ tips) (hschema : chg.schemaCommit ∉ tips)
    (hwithin : chg.containingIdentityCommit ∉ tips) :
    (b.addChange cid (tips ++ [chg.schemaCommit, chg.containingIdentityCommit,
        chg.authorCommit]) chg).2 = tips.map (fun t => (t, cid)) := by
  have hb1edges : (if (alistFind b.nodes cid).isSome then b
      else { b with nodes := b.nodes ++ [(cid, chg)] }).edges = [] := by
    split <;> exact hedges
  have hhe : ∀ p, GraphBuilder.hasEdge (if (alistFind b.nodes cid).isSome
      then b else { b with nodes := b.nodes ++ [(cid, chg)] }) p cid
      = false := by
    intro p
    unfold GraphBuilder.hasEdge
    rw [hb1edges]
    simp
  simp only [GraphBuilder.addChange]
  simp only [hhe, Bool.not_false, Bool.and_true]
  rw [List.filter_append]
  have htail : List.filter (fun p => decide (p ≠ chg.authorCommit) &&
      decide (p ≠ chg.schemaCommit) &&
      decide (p ≠ chg.containingIdentityCommit))
      [chg.schemaCommit, chg.containingIdentityCommit, chg.authorCommit]
      = [] := by
    simp
  have hhead : List.filter (fun p => decide (p ≠ chg.authorCommit) &&
      decide (p ≠ chg.schemaCommit) &&
      decide (p ≠ chg.containingIdentityCommit)) tips = tips := by
    apply List.filter_eq_self.mpr
    intro t ht
    have h1 : t ≠ chg.authorCommit := fun h => hauthor (h ▸ ht)
    have h2 : t ≠ chg.schemaCommit := fun h => hschema (h ▸ ht)
    have h3 : t ≠ chg.containingIdentityCommit := fun h => hwithin (h ▸ ht)
    simp [h1, h2, h3]
  rw [htail, hhead, List.append_nil]

/-- C9 counterexample: the commit created by `Change::create` with previous
tip 1, schema commit 2, containing-identity commit 3, author-identity
commit 4 has parents `[1, 2, 3, 4]` — the containing-identity commit 3 is a
parent even though it is none of the previous tips, the schema commit, or
the author's identity commit, so the parents are not exactly those three
groups as the claim states. -/
theorem change_create_has_containing_identity_parent :
    ((Change.create witSign 3 4 witRepo witChangeSpec).map
        (fun p => (p.2.findCommit p.1.commit).map CommitObj.parents)) =
      some (some [1, 2, 3, 4]) ∧
    (3 : Nat) ∈ ([1, 2, 3, 4] : List Nat) ∧
    (3 : Nat) ∉ ([1] ++ [2, 4] : List Nat) := by
  refine ⟨by decide, by decide, by decide⟩

/-- The commit created by `ChangeMetadata::create` has parents exactly the
given tips followed by the author identity commit, and records that author
commit. -/
theorem ChangeMetadata.create_parents (sign : Nat → List (Nat × Nat))
    (revision : Nat) (tips : List Nat) (a : Nat) (repo repo2 : Repo)
    (md : ChangeMetadata)
    (h : ChangeMetadata.create sign revision tips a repo = some (md, repo2)) :
    (repo2.findCommit md.commit).map CommitObj.parents =
      some (tips ++ [a]) ∧ md.authorCommit = a := by
  simp only [ChangeMetadata.create, Repo.fresh] at h
  split at h
  · cases h
  · split at h
    · simp only [Option.some.injEq, Prod.mk.injEq] at h
      obtain ⟨hmd, hrepo2⟩ := h
      subst hrepo2
      rw [← hmd]
      simp [Repo.findCommit, Repo.addCommit, alistFind]
    · cases h

/-- C9 amended: the git parents of a commit created by `Change::create` are
exactly the previous tips it extends, then the schema commit, the
containing-identity commit and the author's identity commit; and during
graph reconstruction `GraphBuilder::add_change` turns only the
previous-tip parents into pending graph edges, excluding all three
metadata parents (which the change instead carries as trailer-derived
fields). -/
theorem change_create_parents_amended (sign : Nat → List (Nat × Nat))
    (w a : Nat) (repo repo2 : Repo) (spec : NewChangeSpec) (chg : Change)
    (b : GraphBuilder)
    (hc : Change.create sign w a repo spec = some (chg, repo2))
    (hedges : b.edges = [])
    (ha : a ∉ spec.tips.getD []) (hs : spec.schemaCommit ∉ spec.tips.getD [])
    (hw : w ∉ spec.tips.getD []) :
    (repo2.findCommit chg.commit).map CommitObj.parents =
      some (spec.tips.getD [] ++ [spec.schemaCommit, w, a]) ∧
    (b.addChange chg.commit
        (spec.tips.getD [] ++ [spec.schemaCommit, w, a]) chg).2 =
      (spec.tips.getD []).map (fun t => (t, chg.commit)) := by
  simp only [Change.create] at hc
  split at hc
  · cases hc
  · rename_i md repo3 heq
    simp only [Option.some.injEq, Prod.mk.injEq] at hc
    obtain ⟨hchg, hrepo2⟩ := hc
    subst hrepo2
    obtain ⟨hparents, hauth⟩ :=
      ChangeMetadata.create_parents _ _ _ _ _ _ _ heq
    constructor
    · rw [← hchg]
      simpa [List.append_assoc] using hparents
    · have hfields : chg.authorCommit = a ∧ chg.schemaCommit =
          spec.schemaCommit ∧ chg.containingIdentityCommit = w := by
        rw [← hchg]
        exact ⟨hauth, rfl, rfl⟩
      obtain ⟨hf1, hf2, hf3⟩ := hfields
      have := GraphBuilder.addChange_tip_edges b chg.commit
        (spec.tips.getD []) chg hedges (hf1 ▸ ha) (hf2 ▸ hs) (hf3 ▸ hw)
      rw [hf1, hf2, hf3] at this
      exact this

/-- Witness for C9's amended claim: the concrete creation from the
counterexample input yields parents `[1, 2, 3, 4]` (tips, schema,
containing identity, author) and a single pending graph edge for the tip
parent 1. -/
theorem change_create_parents_amended_witness :
    (Repo.findCommit ⟨(11, ⟨10, [1, 2, 3, 4]⟩) :: witRepo.commits, 12⟩
        11).map CommitObj.parents = some [1, 2, 3, 4] ∧
    (GraphBuilder.addChange ⟨[], []⟩ 11 [1, 2, 3, 4]
        ⟨11, 10, 4, 3, 2, "t", .automerge [], [(100, 10)]⟩).2 = [(1, 11)] :=
  change_create_parents_amended witSign 3 4 witRepo
    ⟨(11, ⟨10, [1, 2, 3, 4]⟩) :: witRepo.commits, 12⟩ witChangeSpec
    ⟨11, 10, 4, 3, 2, "t", .automerge [], [(100, 10)]⟩ ⟨[], []⟩ rfl rfl
    (by decide) (by decide) (by decide)

/-- C1 (code bug): in the concrete `create_object` run the init change is
commit 13 (the object id, the only commit whose change produced the cached
history), yet the cached entry records tip set containing only commit 4 —
the author identity commit passed by `lib.rs` to
`new_from_single_change` — which differs from the tip set containing only
the init change commit required by the invariant. -/
theorem createObject_records_author_commit_as_tip :
    (createObject acceptingAmEnv freeLockCacheEnv (fun bs => some ⟨bs⟩) true
        witSign witAuthor witWithin witObjSpec witCreateRepo
        (FileSystemCache.openOn [])).toOption.map
      (fun r => (r.1.id, (alistFind r.2.2.disk r.1.id).map DiskEntry.refs)) =
      some (13, some {4}) ∧
    ({4} : Finset Nat) ≠ ({13} : Finset Nat) := by
  exact ⟨by decide, by decide⟩

/-- The `Discover` handler leaves the discovered set unchanged, and its
document effect and prune decision are `discoverCore` of the document —
independent of the identity-cache memo map. -/
theorem discover_core_spec (env : EvalEnv) (cont : Identity) (chg : Change)
    (st : EvalSt) :
    (discover env cont chg st).1.visited = st.visited ∧
    (discover env cont chg st).1.va = (discoverCore env cont chg st.va).1 ∧
    (discover env cont chg st).2 = (discoverCore env cont chg st.va).2 := by
  unfold discover discoverCore lookupIdentity
  cases h1 : env.lookupRaw chg.containingIdentityCommit with
  | error e => simp
  | ok o1 =>
    cases o1 with
    | none => simp
    | some cid =>
      by_cases hs : areSameIdentity cid cont
      · by_cases hv : chg.validSignatures env.verify
        · cases h2 : env.lookupRaw chg.authorCommit with
          | error e2 => simp [hs, hv]
          | ok o2 =>
            cases o2 with
            | none => simp [hs, hv]
            | some ident =>
              cases ident with
              | project pr => simp [hs, hv]
              | person author =>
                cases cid with
                | person p =>
                    by_cases hok : p.urn = author.urn
                    · cases hh : chg.history with
                      | automerge bytes =>
                        cases hp : st.va.proposeChange env.am bytes with
                        | mk va2 err =>
                            cases err <;> simp [hs, hv, hok, hh, hp]
                    · simp [hs, hv, hok]
                | project pr =>
                    by_cases hok : isMaintainer env pr author = true
                    · cases hh : chg.history with
                      | automerge bytes =>
                        cases hp : st.va.proposeChange env.am bytes with
                        | mk va2 err =>
                            cases err <;> simp [hs, hv, hok, hh, hp]
                    · simp [hs, hv, hok]
        · simp [hs, hv]
      · simp [hs]

/-- With no fuel the list traversal is the identity. -/
theorem visitList_zero (env : EvalEnv) (g : ChangeGraph) (l : List Nat)
    (st : EvalSt) : visitList env g 0 l st = st := by
  induction l with
  | nil => simp [visitList]
  | cons u rest ih => simp [visitList, visitNode, ih]

/-- The discovered set and the document produced by the traversal do not
depend on the identity-cache memo map (which is written but never read):
states agreeing on `visited` and `va` stay in agreement. -/
theorem visit_idc_independent (env : EvalEnv) (g : ChangeGraph) :
    ∀ fuel : Nat,
    (∀ (u : Nat) (sa sb : EvalSt), sa.visited = sb.visited → sa.va = sb.va →
      (visitNode env g fuel u sa).visited =
        (visitNode env g fuel u sb).visited ∧
      (visitNode env g fuel u sa).va = (visitNode env g fuel u sb).va) ∧
    (∀ (l : List Nat) (sa sb : EvalSt), sa.visited = sb.visited →
      sa.va = sb.va →
      (visitList env g fuel l sa).visited =
        (visitList env g fuel l sb).visited ∧
      (visitList env g fuel l sa).va = (visitList env g fuel l sb).va) := by
  intro fuel
  induction fuel with
  | zero =>
      constructor
      · intro u sa sb hv hva
        simp [visitNode, hv, hva]
      · intro l sa sb hv hva
        simp [visitList_zero, hv, hva]
  | succ f ih =>
      have hnode : ∀ (u : Nat) (sa sb : EvalSt), sa.visited = sb.visited →
          sa.va = sb.va →
          (visitNode env g (f + 1) u sa).visited =
            (visitNode env g (f + 1) u sb).visited ∧
          (visitNode env g (f + 1) u sa).va =
            (visitNode env g (f + 1) u sb).va := by
        intro u sa sb hv hva
        simp only [visitNode]
        rw [hv]
        by_cases hmem : u ∈ sb.visited
        · simp [hmem, hv, hva]
        · simp only [hmem, if_neg, if_false]
          cases hfind : alistFind g.nodes u with
          | none => simp [hv, hva]
          | some change =>
              simp only []
              obtain ⟨hda1, hda2, hda3⟩ := discover_core_spec env
                g.containingIdentity change
                ⟨insert u sb.visited, sa.va, sa.idc⟩
              obtain ⟨hdb1, hdb2, hdb3⟩ := discover_core_spec env
                g.containingIdentity change
                ⟨insert u sb.visited, sb.va, sb.idc⟩
              cases hca : discover env g.containingIdentity change
                  ⟨insert u sb.visited, sa.va, sa.idc⟩ with
              | mk sta flaga =>
                cases hcb : discover env g.containingIdentity change
                    ⟨insert u sb.visited, sb.va, sb.idc⟩ with
                | mk stb flagb =>
                  rw [hca] at hda1 hda2 hda3
                  rw [hcb] at hdb1 hdb2 hdb3
                  simp only at hda1 hda2 hda3 hdb1 hdb2 hdb3
                  rw [hva] at hda2 hda3
                  have hflag : flaga = flagb := by rw [hda3, hdb3]
                  have hstv : sta.visited = stb.visited := by
                    rw [hda1, hdb1]
                  have hstva : sta.va = stb.va := by rw [hda2, hdb2]
                  cases flaga with
                  | true =>
                      rw [← hflag]
                      exact ih.2 (g.successors u) sta stb hstv hstva
                  | false =>
                      rw [← hflag]
                      exact ⟨hstv, hstva⟩
      refine ⟨hnode, ?_⟩
      intro l
      induction l with
      | nil =>
          intro sa sb hv hva
          simp only [visitList]
          exact ⟨hv, hva⟩
      | cons u rest ihl =>
          intro sa sb hv hva
          simp only [visitList]
          obtain ⟨h1, h2⟩ := hnode u sa sb hv hva
          exact ihl _ _ h1 h2

/-- C7: evaluation is deterministic — evaluating the same `ChangeGraph`
under the same environment (identical identity resolutions) produces a
`CollaborativeObject` with byte-identical `History`, whatever the initial
state of the identity-cache memo map (for example warm versus cold across
repeated evaluations). -/
theorem evaluate_deterministic (env : EvalEnv) (g : ChangeGraph)
    (idc1 idc2 : List (Nat × Identity)) :
    (g.evaluate env idc1).map (fun r => r.1) =
      (g.evaluate env idc2).map (fun r => r.1) := by
  unfold ChangeGraph.evaluate
  cases hr : g.roots.head? with
  | none => simp
  | some root =>
    cases hf : alistFind g.nodes root with
    | none => simp [hf]
    | some rootChange =>
        obtain ⟨h1, h2⟩ := (visit_idc_independent env g g.nodes.length).1 root
          ⟨∅, ValidatedAutomerge.new env.am g.schemaChange.schema, idc1⟩
          ⟨∅, ValidatedAutomerge.new env.am g.schemaChange.schema, idc2⟩
          rfl rfl
        simp [hf, h2]

/-- Membership in `successors` is edge membership. -/
theorem ChangeGraph.mem_successors (g : ChangeGraph) (u w : Nat) :
    w ∈ g.successors u ↔ (u, w) ∈ g.edges := by
  simp only [ChangeGraph.successors, List.mem_map, List.mem_filter]
  constructor
  · rintro ⟨e, ⟨he, heq⟩, hw⟩
    have : e = (u, w) := by
      cases e
      simp_all
    exact this ▸ he
  · intro h
    exact ⟨(u, w), ⟨h, by simp⟩, rfl⟩

/-- A found key is among the node keys. -/
theorem alistFind_mem_keys (l : List (Nat × Change)) (u : Nat) (c : Change)
    (h : alistFind l u = some c) : u ∈ (l.map (fun p => p.1)).toFinset := by
  induction l with
  | nil => cases h
  | cons p rest ih =>
      simp only [alistFind] at h
      by_cases hp : p.1 = u
      · simp [hp]
      · rw [if_neg hp] at h
        simp [ih h]

/-- `propose_change` preserves the frontend invariant. -/
theorem proposeChange_preserves_inv (env : AmEnv) (va : ValidatedAutomerge)
    (bytes : List Nat) (h : va.FrontendInv env) :
    (va.proposeChange env bytes).1.FrontendInv env := by
  simp only [ValidatedAutomerge.proposeChange]
  split
  · exact h
  · split
    · exact h
    · split
      · simp_all [ValidatedAutomerge.FrontendInv]
      · simp_all [ValidatedAutomerge.FrontendInv, ValidatedAutomerge.reset]

/-- If `propose_change` reports an error, the returned state equals the
input state (given the frontend invariant). -/
theorem proposeChange_error_eq (env : AmEnv) (va : ValidatedAutomerge)
    (bytes : List Nat) (err : ProposalError) (hinv : va.FrontendInv env)
    (hrun : (va.proposeChange env bytes).2 = some err) :
    (va.proposeChange env bytes).1 = va := by
  cases hp : va.proposeChange env bytes with
  | mk va2 e =>
      rw [hp] at hrun
      simp only at hrun
      subst hrun
      exact proposeChange_rollback_helper env va va2 bytes err hinv hp

/-- The `Discover` handler in terms of the static checks: when they fail the
state is untouched and the node is pruned; when they pass the delta is
proposed, continuing iff it is accepted. -/
theorem discoverCore_eq (env : EvalEnv) (cont : Identity) (chg : Change)
    (va : ValidatedAutomerge) :
    discoverCore env cont chg va =
      (if staticOk env cont chg then
        (match va.proposeChange env.am chg.history.asBytes with
         | (va2, none) => (va2, true)
         | (va2, some _) => (va2, false))
      else (va, false)) := by
  unfold discoverCore staticOk
  cases h1 : env.lookupRaw chg.containingIdentityCommit with
  | error e => simp
  | ok o1 =>
    cases o1 with
    | none => simp
    | some cid =>
      by_cases hA : areSameIdentity cid cont
      · by_cases hB : chg.validSignatures env.verify
        · cases h2 : env.lookupRaw chg.authorCommit with
          | error e2 => simp [hA, hB]
          | ok o2 =>
            cases o2 with
            | none => simp [hA, hB]
            | some ident =>
              cases ident with
              | project pr => simp [hA, hB]
              | person author =>
                cases cid with
                | person p =>
                    by_cases hok : p.urn = author.urn
                    · cases hh : chg.history with
                      | automerge bytes =>
                          simp [hA, hB, hok, hh, History.asBytes]
                    · simp [hA, hB, hok]
                | project pr =>
                    by_cases hok : isMaintainer env pr author = true
                    · cases hh : chg.history with
                      | automerge bytes =>
                          simp [hA, hB, hok, hh, History.asBytes]
                    · simp [hA, hB, hok]
        · simp [hA, hB]
      · simp [hA]

/-- An accepted proposal appends exactly the proposed bytes to the valid
history. -/
theorem proposeChange_none_append (env : AmEnv) (va : ValidatedAutomerge)
    (bytes : List Nat) (h : (va.proposeChange env bytes).2 = none) :
    (va.proposeChange env bytes).1.validHistory =
      va.validHistory ++ bytes := by
  simp only [ValidatedAutomerge.proposeChange] at h ⊢
  split at h
  · cases h
  · split at h
    · cases h
    · split at h
      · rename_i hval
        simp [hval]
      · cases h

/-- The DFS only grows the discovered set. -/
theorem visit_visited_mono (env : EvalEnv) (g : ChangeGraph) :
    ∀ fuel : Nat,
    (∀ (u : Nat) (st : EvalSt),
      st.visited ⊆ (visitNode env g fuel u st).visited) ∧
    (∀ (l : List Nat) (st : EvalSt),
      st.visited ⊆ (visitList env g fuel l st).visited) := by
  intro fuel
  induction fuel with
  | zero =>
      refine ⟨fun u st => ?_, fun l st => ?_⟩
      · simp [visitNode]
      · simp [visitList_zero]
  | succ f ih =>
      have hnode : ∀ (u : Nat) (st : EvalSt),
          st.visited ⊆ (visitNode env g (f + 1) u st).visited := by
        intro u st
        simp only [visitNode]
        by_cases hmem : u ∈ st.visited
        · simp [hmem]
        · simp only [hmem, if_neg, if_false]
          cases hfind : alistFind g.nodes u with
          | none => simp [Finset.subset_insert]
          | some change =>
              simp only []
              cases hd : discover env g.containingIdentity change
                  ⟨insert u st.visited, st.va, st.idc⟩ with
              | mk st2 flag =>
                  have hv2 : st2.visited = insert u st.visited := by
                    have := (discover_core_spec env g.containingIdentity
                      change ⟨insert u st.visited, st.va, st.idc⟩).1
                    rw [hd] at this
                    exact this
                  cases flag with
                  | true =>
                      refine Finset.Subset.trans ?_
                        (ih.2 (g.successors u) st2)
                      rw [hv2]
                      exact Finset.subset_insert _ _
                  | false =>
                      rw [hv2]
                      exact Finset.subset_insert _ _
      refine ⟨hnode, ?_⟩
      intro l
      induction l with
      | nil =>
          intro st
          simp [visitList]
      | cons u rest ihl =>
          intro st
          simp only [visitList]
          exact Finset.Subset.trans (hnode u st) (ihl _)

/-- The DFS preserves the frontend invariant and only ever appends to the
valid history. -/
theorem visit_inv_extends (env : EvalEnv) (g : ChangeGraph) :
    ∀ fuel : Nat,
    (∀ (u : Nat) (st : EvalSt), st.va.FrontendInv env.am →
      (visitNode env g fuel u st).va.FrontendInv env.am ∧
      st.va.validHistory <+: (visitNode env g fuel u st).va.validHistory) ∧
    (∀ (l : List Nat) (st : EvalSt), st.va.FrontendInv env.am →
      (visitList env g fuel l st).va.FrontendInv env.am ∧
      st.va.validHistory <+: (visitList env g fuel l st).va.validHistory) := by
  intro fuel
  induction fuel with
  | zero =>
      refine ⟨fun u st h => ?_, fun l st h => ?_⟩
      · simp [visitNode, h]
      · simp [visitList_zero, h]
  | succ f ih =>
      have hnode : ∀ (u : Nat) (st : EvalSt), st.va.FrontendInv env.am →
          (visitNode env g (f + 1) u st).va.FrontendInv env.am ∧
          st.va.validHistory <+:
            (visitNode env g (f + 1) u st).va.validHistory := by
        intro u st hinv
        simp only [visitNode]
        by_cases hmem : u ∈ st.visited
        · simp [hmem, hinv]
        · simp only [hmem, if_neg, if_false]
          cases hfind : alistFind g.nodes u with
          | none => simp [hinv]
          | some change =>
              simp only []
              cases hd : discover env g.containingIdentity change
                  ⟨insert u st.visited, st.va, st.idc⟩ with
              | mk st2 flag =>
                  have hva2 : st2.va =
                      (discoverCore env g.containingIdentity change
                        st.va).1 := by
                    have := (discover_core_spec env g.containingIdentity
                      change ⟨insert u st.visited, st.va, st.idc⟩).2.1
                    rw [hd] at this
                    exact this
                  have hstep : st2.va.FrontendInv env.am ∧
                      st.va.validHistory <+: st2.va.validHistory := by
                    rw [hva2, discoverCore_eq]
                    by_cases hstat : staticOk env g.containingIdentity
                        change = true
                    · simp only [hstat, if_pos]
                      cases hp : st.va.proposeChange env.am
                          change.history.asBytes with
                      | mk va2 err =>
                          cases err with
                          | none =>
                              have h1 := proposeChange_preserves_inv env.am
                                st.va change.history.asBytes hinv
                              have h2 := proposeChange_none_append env.am
                                st.va change.history.asBytes (by
                                  rw [hp])
                              rw [hp] at h1 h2
                              simp only at h1 h2
                              exact ⟨h1, h2 ▸ List.prefix_append _ _⟩
                          | some e =>
                              have h1 := proposeChange_error_eq env.am st.va
                                change.history.asBytes e hinv (by rw [hp])
                              rw [hp] at h1
                              simp only at h1
                              simp [h1, hinv]
                    · simp only [hstat, if_neg, Bool.false_eq_true,
                        if_false]
                      exact ⟨hinv, List.prefix_rfl⟩
                  cases flag with
                  | true =>
                      obtain ⟨hi2, hp2⟩ := hstep
                      obtain ⟨hi3, hp3⟩ := ih.2 (g.successors u) st2 hi2
                      exact ⟨hi3, hp2.trans hp3⟩
                  | false => exact hstep
      refine ⟨hnode, ?_⟩
      intro l
      induction l with
      | nil =>
          intro st h
          simp only [visitList]
          exact ⟨h, List.prefix_rfl⟩
      | cons u rest ihl =>
          intro st h
          simp only [visitList]
          obtain ⟨h1, h2⟩ := hnode u st h
          obtain ⟨h3, h4⟩ := ihl _ h1
          exact ⟨h3, h2.trans h4⟩

/-- Provenance is monotone in the discovered set. -/
theorem ProvChain.mono (env : EvalEnv) (g : ChangeGraph)
    {V V2 : Finset Nat} (chain : List Change) (hV : V ⊆ V2)
    (h : ProvChain env g V chain) : ProvChain env g V2 chain := by
  intro c hc
  obtain ⟨⟨u, hu1, hu2⟩, h2, h3⟩ := h c hc
  exact ⟨⟨u, hu1, hV hu2⟩, h2, h3⟩

/-- The DFS maintains history provenance: starting from a state whose valid
history is `base` plus the bytes of a provenance chain, it ends in one. -/
theorem visit_provenance (env : EvalEnv) (g : ChangeGraph)
    (base : List Nat) :
    ∀ fuel : Nat,
    (∀ (u : Nat) (st : EvalSt), st.va.FrontendInv env.am →
      (∃ chain, ProvChain env g st.visited chain ∧
        st.va.validHistory =
          base ++ (chain.map (fun c => c.history.asBytes)).flatten) →
      ∃ chain, ProvChain env g (visitNode env g fuel u st).visited chain ∧
        (visitNode env g fuel u st).va.validHistory =
          base ++ (chain.map (fun c => c.history.asBytes)).flatten) ∧
    (∀ (l : List Nat) (st : EvalSt), st.va.FrontendInv env.am →
      (∃ chain, ProvChain env g st.visited chain ∧
        st.va.validHistory =
          base ++ (chain.map (fun c => c.history.asBytes)).flatten) →
      ∃ chain, ProvChain env g (visitList env g fuel l st).visited chain ∧
        (visitList env g fuel l st).va.validHistory =
          base ++ (chain.map (fun c => c.history.asBytes)).flatten) := by
  intro fuel
  induction fuel with
  | zero =>
      refine ⟨fun u st _ h => ?_, fun l st _ h => ?_⟩
      · simpa [visitNode] using h
      · simpa [visitList_zero] using h
  | succ f ih =>
      have hnode : ∀ (u : Nat) (st : EvalSt), st.va.FrontendInv env.am →
          (∃ chain, ProvChain env g st.visited chain ∧
            st.va.validHistory =
              base ++ (chain.map (fun c => c.history.asBytes)).flatten) →
          ∃ chain, ProvChain env g (visitNode env g (f + 1) u st).visited
              chain ∧
            (visitNode env g (f + 1) u st).va.validHistory =
              base ++ (chain.map (fun c => c.history.asBytes)).flatten := by
        intro u st hinv hprov
        simp only [visitNode]
        by_cases hmem : u ∈ st.visited
        · simpa [hmem] using hprov
        · simp only [hmem, if_neg, if_false]
          obtain ⟨chain, hch, hhist⟩ := hprov
          have hch1 : ProvChain env g (insert u st.visited) chain :=
            ProvChain.mono env g chain (Finset.subset_insert _ _) hch
          cases hfind : alistFind g.nodes u with
          | none => exact ⟨chain, hch1, hhist⟩
          | some change =>
              simp only []
              cases hd : discover env g.containingIdentity change
                  ⟨insert u st.visited, st.va, st.idc⟩ with
              | mk st2 flag =>
                  have hv2 : st2.visited = insert u st.visited := by
                    have := (discover_core_spec env g.containingIdentity
                      change ⟨insert u st.visited, st.va, st.idc⟩).1
                    rw [hd] at this
                    exact this
                  have hva2 : st2.va =
                      (discoverCore env g.containingIdentity change
                        st.va).1 := by
                    have := (discover_core_spec env g.containingIdentity
                      change ⟨insert u st.visited, st.va, st.idc⟩).2.1
                    rw [hd] at this
                    exact this
                  have hstep : st2.va.FrontendInv env.am ∧
                      ∃ chain2, ProvChain env g st2.visited chain2 ∧
                        st2.va.validHistory = base ++
                          (chain2.map (fun c => c.history.asBytes)).flatten
                      := by
                    rw [hva2, discoverCore_eq]
                    by_cases hstat : staticOk env g.containingIdentity
                        change = true
                    · simp only [hstat, if_pos]
                      cases hp : st.va.proposeChange env.am
                          change.history.asBytes with
                      | mk va2 err =>
                          cases err with
                          | none =>
                              have h1 := proposeChange_preserves_inv env.am
                                st.va change.history.asBytes hinv
                              have h2 := proposeChange_none_append env.am
                                st.va change.history.asBytes (by rw [hp])
                              rw [hp] at h1 h2
                              simp only at h1 h2 ⊢
                              refine ⟨h1, chain ++ [change], ?_, ?_⟩
                              · intro c hc
                                rw [List.mem_append] at hc
                                cases hc with
                                | inl hcl =>
                                    obtain ⟨⟨u0, hu1, hu2⟩, hs2, hpp⟩ :=
                                      hch1 c hcl
                                    refine ⟨⟨u0, hu1, ?_⟩, hs2, hpp⟩
                                    rw [hv2]
                                    exact hu2
                                | inr hcr =>
                                    have hc2 : c = change := by
                                      simpa using hcr
                                    subst hc2
                                    refine ⟨⟨u, hfind, ?_⟩, hstat,
                                      st.va, va2, hp⟩
                                    rw [hv2]
                                    exact Finset.mem_insert_self u _
                              · rw [h2, hhist]
                                simp [List.flatten_append,
                                  List.append_assoc]
                          | some e =>
                              have h1 := proposeChange_error_eq env.am st.va
                                change.history.asBytes e hinv (by rw [hp])
                              rw [hp] at h1
                              simp only at h1 ⊢
                              rw [h1]
                              exact ⟨hinv, chain, hv2 ▸ hch1, hhist⟩
                    · simp only [hstat, if_neg, Bool.false_eq_true,
                        if_false]
                      exact ⟨hinv, chain, hv2 ▸ hch1, hhist⟩
                  cases flag with
                  | true =>
                      obtain ⟨hi2, hprov2⟩ := hstep
                      exact ih.2 (g.successors u) st2 hi2 hprov2
                  | false => exact hstep.2
      refine ⟨hnode, ?_⟩
      intro l
      induction l with
      | nil =>
          intro st hinv h
          simpa [visitList] using h
      | cons u rest ihl =>
          intro st hinv h
          simp only [visitList]
          have h1 := hnode u st hinv h
          have h2 := ((visit_inv_extends env g (f + 1)).1 u st hinv).1
          exact ihl _ h2 h1

/-- If the `Discover` handler continues at a node, that node is not always
pruned: its static checks pass and its delta was just accepted. -/
theorem discover_continue_not_pruned (env : EvalEnv) (g : ChangeGraph)
    (change : Change) (u : Nat) (st2 : EvalSt) (stv : Finset Nat)
    (va : ValidatedAutomerge) (idc : List (Nat × Identity))
    (hinv : va.FrontendInv env.am)
    (hfind : alistFind g.nodes u = some change)
    (hd : discover env g.containingIdentity change ⟨stv, va, idc⟩ =
      (st2, true)) :
    staticOk env g.containingIdentity change = true ∧
    (va.proposeChange env.am change.history.asBytes).2 = none ∧
    ¬ AlwaysPrunedNode env g u := by
  have hflag := (discover_core_spec env g.containingIdentity change
    ⟨stv, va, idc⟩).2.2
  rw [hd] at hflag
  simp only at hflag
  rw [discoverCore_eq] at hflag
  by_cases hstat : staticOk env g.containingIdentity change = true
  · rw [if_pos hstat] at hflag
    cases hp : va.proposeChange env.am change.history.asBytes with
    | mk va2 err =>
        rw [hp] at hflag
        cases err with
        | none =>
            refine ⟨hstat, by simp [hp], ?_⟩
            intro hpr
            cases hpr change hfind with
            | inl h => rw [hstat] at h; cases h
            | inr h => exact h va hinv (by simp [hp])
        | some e => simp at hflag
  · rw [if_neg hstat] at hflag
    simp at hflag

/-- Every node the DFS discovers is reachable from the start node through
parents that are not always pruned: a node reachable only through an
always-pruned node is never visited. -/
theorem visit_clean (env : EvalEnv) (g : ChangeGraph) (root : Nat) :
    ∀ fuel : Nat,
    (∀ (u : Nat) (st : EvalSt), st.va.FrontendInv env.am →
      ReachClean env g root u →
      (∀ v ∈ st.visited, ReachClean env g root v) →
      ∀ v ∈ (visitNode env g fuel u st).visited,
        ReachClean env g root v) ∧
    (∀ (l : List Nat) (st : EvalSt), st.va.FrontendInv env.am →
      (∀ w ∈ l, ReachClean env g root w) →
      (∀ v ∈ st.visited, ReachClean env g root v) →
      ∀ v ∈ (visitList env g fuel l st).visited,
        ReachClean env g root v) := by
  intro fuel
  induction fuel with
  | zero =>
      refine ⟨fun u st _ _ hall => ?_, fun l st _ _ hall => ?_⟩
      · simpa [visitNode] using hall
      · simpa [visitList_zero] using hall
  | succ f ih =>
      have hnode : ∀ (u : Nat) (st : EvalSt), st.va.FrontendInv env.am →
          ReachClean env g root u →
          (∀ v ∈ st.visited, ReachClean env g root v) →
          ∀ v ∈ (visitNode env g (f + 1) u st).visited,
            ReachClean env g root v := by
        intro u st hinv hru hall
        simp only [visitNode]
        by_cases hmem : u ∈ st.visited
        · simpa [hmem] using hall
        · simp only [hmem, if_neg, if_false]
          have hall1 : ∀ v ∈ insert u st.visited,
              ReachClean env g root v := by
            intro v hv
            rcases Finset.mem_insert.mp hv with hv1 | hv2
            · exact hv1 ▸ hru
            · exact hall v hv2
          cases hfind : alistFind g.nodes u with
          | none => simpa using hall1
          | some change =>
              simp only []
              cases hd : discover env g.containingIdentity change
                  ⟨insert u st.visited, st.va, st.idc⟩ with
              | mk st2 flag =>
                  have hv2 : st2.visited = insert u st.visited := by
                    have := (discover_core_spec env g.containingIdentity
                      change ⟨insert u st.visited, st.va, st.idc⟩).1
                    rw [hd] at this
                    exact this
                  have hall2 : ∀ v ∈ st2.visited,
                      ReachClean env g root v := by
                    rw [hv2]; exact hall1
                  cases flag with
                  | true =>
                      obtain ⟨hstat, hpok, hnp⟩ :=
                        discover_continue_not_pruned env g change u st2
                          (insert u st.visited) st.va st.idc hinv hfind hd
                      have hsucc : ∀ w ∈ g.successors u,
                          ReachClean env g root w := by
                        intro w hw
                        exact ReachClean.step hru hnp
                          ((ChangeGraph.mem_successors g u w).mp hw)
                      have hinv2 : st2.va.FrontendInv env.am := by
                        have := (discover_core_spec env g.containingIdentity
                          change ⟨insert u st.visited, st.va, st.idc⟩).2.1
                        rw [hd] at this
                        simp only at this
                        rw [this, discoverCore_eq, if_pos hstat]
                        cases hp : st.va.proposeChange env.am
                            change.history.asBytes with
                        | mk va2 err =>
                            have := proposeChange_preserves_inv env.am st.va
                              change.history.asBytes hinv
                            rw [hp] at this
                            cases err <;> simpa using this
                      exact ih.2 (g.successors u) st2 hinv2 hsucc hall2
                  | false => exact hall2
      refine ⟨hnode, ?_⟩
      intro l
      induction l with
      | nil =>
          intro st hinv hl hall
          simpa [visitList] using hall
      | cons u rest ihl =>
          intro st hinv hl hall
          simp only [visitList]
          have h1 := hnode u st hinv (hl u (by simp)) hall
          have h2 := ((visit_inv_extends env g (f + 1)).1 u st hinv).1
          exact ihl _ h2 (fun w hw => hl w (by simp [hw])) h1

/-- Marking a fresh graph node strictly shrinks the unvisited node set. -/
theorem unvisited_card_lt (g : ChangeGraph) (u : Nat) (V : Finset Nat)
    (hu : u ∈ g.nodeKeys) (hnv : u ∉ V) :
    (g.nodeKeys \ insert u V).card < (g.nodeKeys \ V).card := by
  apply Finset.card_lt_card
  rw [Finset.ssubset_iff_of_subset
    (Finset.sdiff_subset_sdiff Finset.Subset.rfl
      (Finset.subset_insert _ _))]
  exact ⟨u, Finset.mem_sdiff.mpr ⟨hu, hnv⟩,
    fun h => (Finset.mem_sdiff.mp h).2 (Finset.mem_insert_self _ _)⟩

/-- Growing the visited set can only shrink the unvisited node set. -/
theorem unvisited_card_mono (g : ChangeGraph) (V V2 : Finset Nat)
    (h : V ⊆ V2) : (g.nodeKeys \ V2).card ≤ (g.nodeKeys \ V).card :=
  Finset.card_le_card (Finset.sdiff_subset_sdiff Finset.Subset.rfl h)

/-- A pending node already visited can be dropped from the exception set. -/
theorem ClosedExcept.drop (env : EvalEnv) (g : ChangeGraph) (st : EvalSt)
    (u : Nat) (E : Finset Nat) (h : ClosedExcept env g st (insert u E))
    (hu : u ∈ st.visited) : ClosedExcept env g st E := by
  intro v hv hok w hw
  rcases h v hv hok w hw with h1 | h2
  · exact Or.inl h1
  · rcases Finset.mem_insert.mp h2 with h3 | h4
    · exact Or.inl (h3 ▸ hu)
    · exact Or.inr h4

/-- With enough fuel (at least the number of unvisited graph nodes), the
DFS marks the node it is called on, and it preserves closedness-up-to-`E`:
every node that passes every check and gets discovered has all its
children discovered (or pending in `E`) by the time the call returns. -/
theorem visit_complete (env : EvalEnv) (g : ChangeGraph)
    (hwf : ∀ e ∈ g.edges, e.2 ∈ g.nodeKeys) :
    ∀ fuel : Nat,
    (∀ (u : Nat) (st : EvalSt) (E : Finset Nat),
      st.va.FrontendInv env.am →
      (g.nodeKeys \ st.visited).card ≤ fuel →
      (u ∈ g.nodeKeys → u ∈ (visitNode env g fuel u st).visited) ∧
      (ClosedExcept env g st E →
        ClosedExcept env g (visitNode env g fuel u st) E)) ∧
    (∀ (l : List Nat) (st : EvalSt) (E : Finset Nat),
      st.va.FrontendInv env.am →
      (g.nodeKeys \ st.visited).card ≤ fuel →
      (∀ w ∈ l, w ∈ g.nodeKeys) →
      (∀ w ∈ l, w ∈ (visitList env g fuel l st).visited) ∧
      (ClosedExcept env g st (E ∪ l.toFinset) →
        ClosedExcept env g (visitList env g fuel l st) E)) := by
  intro fuel
  induction fuel with
  | zero =>
      refine ⟨fun u st E hinv hcard => ⟨fun hu => ?_, fun hcl => ?_⟩,
        fun l st E hinv hcard hl => ⟨fun w hw => ?_, fun hcl => ?_⟩⟩
      · have hempty : g.nodeKeys \ st.visited = ∅ :=
          Finset.card_eq_zero.mp (Nat.le_zero.mp hcard)
        have : u ∈ st.visited := by
          by_contra hnv
          have : u ∈ g.nodeKeys \ st.visited :=
            Finset.mem_sdiff.mpr ⟨hu, hnv⟩
          simp [hempty] at this
        simpa [visitNode] using this
      · simpa [visitNode] using hcl
      · have hempty : g.nodeKeys \ st.visited = ∅ :=
          Finset.card_eq_zero.mp (Nat.le_zero.mp hcard)
        have : w ∈ st.visited := by
          by_contra hnv
          have : w ∈ g.nodeKeys \ st.visited :=
            Finset.mem_sdiff.mpr ⟨hl w hw, hnv⟩
          simp [hempty] at this
        simpa [visitList_zero] using this
      · rw [visitList_zero]
        intro v hv hok w hw
        rcases hcl v hv hok w hw with h1 | h2
        · exact Or.inl h1
        · rcases Finset.mem_union.mp h2 with h3 | h4
          · exact Or.inr h3
          · -- w is a pending list element, but the unvisited set is empty
            have hempty : g.nodeKeys \ st.visited = ∅ :=
              Finset.card_eq_zero.mp (Nat.le_zero.mp hcard)
            have hwk : w ∈ g.nodeKeys := hl w (List.mem_toFinset.mp h4)
            left
            by_contra hnv
            have : w ∈ g.nodeKeys \ st.visited :=
              Finset.mem_sdiff.mpr ⟨hwk, hnv⟩
            simp [hempty] at this
  | succ f ih =>
      have hnode : ∀ (u : Nat) (st : EvalSt) (E : Finset Nat),
          st.va.FrontendInv env.am →
          (g.nodeKeys \ st.visited).card ≤ f + 1 →
          (u ∈ g.nodeKeys → u ∈ (visitNode env g (f + 1) u st).visited) ∧
          (ClosedExcept env g st E →
            ClosedExcept env g (visitNode env g (f + 1) u st) E) := by
        intro u st E hinv hcard
        simp only [visitNode]
        by_cases hmem : u ∈ st.visited
        · rw [if_pos hmem]
          exact ⟨fun _ => hmem, fun hcl => hcl⟩
        · rw [if_neg hmem]
          cases hfind : alistFind g.nodes u with
          | none =>
              refine ⟨fun hu => Finset.mem_insert_self _ _, fun hcl => ?_⟩
              intro v hv hok w hw
              rcases Finset.mem_insert.mp hv with hv1 | hv2
              · obtain ⟨chg, hchg, _, _⟩ := hok
                rw [hv1, hfind] at hchg
                cases hchg
              · rcases hcl v hv2 hok w hw with h1 | h2
                · exact Or.inl (Finset.mem_insert_of_mem h1)
                · exact Or.inr h2
          | some change =>
              simp only []
              have hukeys : u ∈ g.nodeKeys :=
                alistFind_mem_keys g.nodes u change hfind
              cases hd : discover env g.containingIdentity change
                  ⟨insert u st.visited, st.va, st.idc⟩ with
              | mk st2 flag =>
                  have hv2 : st2.visited = insert u st.visited := by
                    have := (discover_core_spec env g.containingIdentity
                      change ⟨insert u st.visited, st.va, st.idc⟩).1
                    rw [hd] at this
                    exact this
                  have hva2 : st2.va =
                      (discoverCore env g.containingIdentity change
                        st.va).1 := by
                    have := (discover_core_spec env g.containingIdentity
                      change ⟨insert u st.visited, st.va, st.idc⟩).2.1
                    rw [hd] at this
                    exact this
                  have hinv2 : st2.va.FrontendInv env.am := by
                    rw [hva2, discoverCore_eq]
                    by_cases hstat : staticOk env g.containingIdentity
                        change = true
                    · rw [if_pos hstat]
                      cases hp : st.va.proposeChange env.am
                          change.history.asBytes with
                      | mk va2 err =>
                          have := proposeChange_preserves_inv env.am st.va
                            change.history.asBytes hinv
                          rw [hp] at this
                          cases err <;> simpa using this
                    · rw [if_neg hstat]
                      exact hinv
                  have hcard2 : (g.nodeKeys \ st2.visited).card ≤ f := by
                    rw [hv2]
                    have := unvisited_card_lt g u st.visited hukeys hmem
                    omega
                  cases flag with
                  | false =>
                      refine ⟨fun _ => ?_, fun hcl => ?_⟩
                      · rw [hv2]
                        exact Finset.mem_insert_self _ _
                      intro v hv hok w hw
                      rw [hv2] at hv
                      rcases Finset.mem_insert.mp hv with hv1 | hv3
                      · -- v = u passes every check, yet was pruned
                        obtain ⟨chg, hchg, hstat, hprop⟩ := hok
                        rw [hv1, hfind] at hchg
                        cases hchg
                        have hflag := (discover_core_spec env
                          g.containingIdentity change
                          ⟨insert u st.visited, st.va, st.idc⟩).2.2
                        rw [hd] at hflag
                        simp only at hflag
                        rw [discoverCore_eq, if_pos hstat] at hflag
                        cases hp : st.va.proposeChange env.am
                            change.history.asBytes with
                        | mk va2 err =>
                            rw [hp] at hflag
                            have := hprop st.va hinv
                            rw [hp] at this
                            simp only at this
                            subst this
                            simp at hflag
                      · rcases hcl v hv3 hok w hw with h1 | h2
                        · left
                          rw [hv2]
                          exact Finset.mem_insert_of_mem h1
                        · exact Or.inr h2
                  | true =>
                      have hsucckeys : ∀ w ∈ g.successors u,
                          w ∈ g.nodeKeys := by
                        intro w hw
                        exact hwf (u, w)
                          ((ChangeGraph.mem_successors g u w).mp hw)
                      obtain ⟨hmark, hclose⟩ := ih.2 (g.successors u) st2 E
                        hinv2 hcard2 hsucckeys
                      refine ⟨fun _ => ?_, fun hcl => ?_⟩
                      · exact (visit_visited_mono env g f).2
                          (g.successors u) st2
                          (by rw [hv2]; exact Finset.mem_insert_self _ _)
                      · apply hclose
                        intro v hv hok w hw
                        rw [hv2] at hv
                        rcases Finset.mem_insert.mp hv with hv1 | hv3
                        · right
                          rw [Finset.mem_union]
                          right
                          rw [List.mem_toFinset, ← hv1]
                          exact hw
                        · rcases hcl v hv3 hok w hw with h1 | h2
                          · left
                            rw [hv2]
                            exact Finset.mem_insert_of_mem h1
                          · right
                            exact Finset.mem_union_left _ h2
      refine ⟨hnode, ?_⟩
      intro l
      induction l with
      | nil =>
          intro st E hinv hcard hl
          refine ⟨fun w hw => absurd hw (List.not_mem_nil w), fun hcl => ?_⟩
          simp only [visitList]
          simpa using hcl
      | cons u rest ihl =>
          intro st E hinv hcard hl
          simp only [visitList]
          have hu : u ∈ g.nodeKeys := hl u (by simp)
          obtain ⟨hmarku, hcloseu⟩ := hnode u st
            (E ∪ (u :: rest).toFinset) hinv hcard
          have hinv1 := ((visit_inv_extends env g (f + 1)).1 u st hinv).1
          have hmono1 := (visit_visited_mono env g (f + 1)).1 u st
          have hcard1 : (g.nodeKeys \
              (visitNode env g (f + 1) u st).visited).card ≤ f + 1 :=
            le_trans (unvisited_card_mono g _ _ hmono1) hcard
          obtain ⟨hmarkr, hcloser⟩ := ihl (visitNode env g (f + 1) u st) E
            hinv1 hcard1 (fun w hw => hl w (by simp [hw]))
          refine ⟨fun w hw => ?_, fun hcl => ?_⟩
          · rcases List.mem_cons.mp hw with hw1 | hw2
            · subst hw1
              exact (visit_visited_mono env g (f + 1)).2 rest _
                (hmarku hu)
            · exact hmarkr w hw2
          · apply hcloser
            have hstep := hcloseu hcl
            have : ClosedExcept env g (visitNode env g (f + 1) u st)
                (insert u (E ∪ rest.toFinset)) := by
              intro v hv hok w hw
              rcases hstep v hv hok w hw with h1 | h2
              · exact Or.inl h1
              · right
                rcases Finset.mem_union.mp h2 with h3 | h4
                · exact Finset.mem_insert_of_mem (Finset.mem_union_left _ h3)
                · rw [List.toFinset_cons] at h4
                  rcases Finset.mem_insert.mp h4 with h5 | h6
                  · exact h5 ▸ Finset.mem_insert_self _ _
                  · exact Finset.mem_insert_of_mem
                      (Finset.mem_union_right _ h6)
            exact ClosedExcept.drop env g _ u (E ∪ rest.toFinset) this
              (hmarku hu)

/-- `ReachOk` ends in a node that passes every check. -/
theorem ReachOk.always {env : EvalEnv} {g : ChangeGraph} {root m : Nat}
    (h : ReachOk env g root m) : AlwaysOkNode env g m := by
  cases h with
  | base h => exact h
  | step _ h _ => exact h

/-- If a node that passes every check gets discovered during a traversal
step, its delta bytes appear in the resulting valid history. -/
theorem visit_byte_run (env : EvalEnv) (g : ChangeGraph) :
    ∀ fuel : Nat,
    (∀ (u m : Nat) (chg : Change) (st : EvalSt),
      st.va.FrontendInv env.am →
      alistFind g.nodes m = some chg → AlwaysOkNode env g m →
      m ∉ st.visited → m ∈ (visitNode env g fuel u st).visited →
      chg.history.asBytes <:+:
        (visitNode env g fuel u st).va.validHistory) ∧
    (∀ (l : List Nat) (m : Nat) (chg : Change) (st : EvalSt),
      st.va.FrontendInv env.am →
      alistFind g.nodes m = some chg → AlwaysOkNode env g m →
      m ∉ st.visited → m ∈ (visitList env g fuel l st).visited →
      chg.history.asBytes <:+:
        (visitList env g fuel l st).va.validHistory) := by
  intro fuel
  induction fuel with
  | zero =>
      refine ⟨fun u m chg st _ _ _ hnm hm => ?_,
        fun l m chg st _ _ _ hnm hm => ?_⟩
      · rw [visitNode] at hm
        exact absurd hm hnm
      · rw [visitList_zero] at hm
        exact absurd hm hnm
  | succ f ih =>
      have hnode : ∀ (u m : Nat) (chg : Change) (st : EvalSt),
          st.va.FrontendInv env.am →
          alistFind g.nodes m = some chg → AlwaysOkNode env g m →
          m ∉ st.visited → m ∈ (visitNode env g (f + 1) u st).visited →
          chg.history.asBytes <:+:
            (visitNode env g (f + 1) u st).va.validHistory := by
        intro u m chg st hinv hfindm hok hnm hm
        rw [visitNode] at hm ⊢
        by_cases hmem : u ∈ st.visited
        · rw [if_pos hmem] at hm
          exact absurd hm hnm
        · rw [if_neg hmem] at hm ⊢
          cases hfind : alistFind g.nodes u with
          | none =>
              simp only [hfind] at hm
              rcases Finset.mem_insert.mp hm with hm1 | hm2
              · exfalso
                rw [hm1, hfind] at hfindm
                cases hfindm
              · exact absurd hm2 hnm
          | some change =>
              simp only [hfind] at hm
              simp only []
              cases hd : discover env g.containingIdentity change
                  ⟨insert u st.visited, st.va, st.idc⟩ with
              | mk st2 flag =>
                  rw [hd] at hm
                  have hv2 : st2.visited = insert u st.visited := by
                    have := (discover_core_spec env g.containingIdentity
                      change ⟨insert u st.visited, st.va, st.idc⟩).1
                    rw [hd] at this
                    exact this
                  have hva2 : st2.va =
                      (discoverCore env g.containingIdentity change
                        st.va).1 := by
                    have := (discover_core_spec env g.containingIdentity
                      change ⟨insert u st.visited, st.va, st.idc⟩).2.1
                    rw [hd] at this
                    exact this
                  have hinv2 : st2.va.FrontendInv env.am := by
                    rw [hva2, discoverCore_eq]
                    by_cases hstat : staticOk env g.containingIdentity
                        change = true
                    · rw [if_pos hstat]
                      cases hp : st.va.proposeChange env.am
                          change.history.asBytes with
                      | mk va2 err =>
                          have := proposeChange_preserves_inv env.am st.va
                            change.history.asBytes hinv
                          rw [hp] at this
                          cases err <;> simpa using this
                    · rw [if_neg hstat]
                      exact hinv
                  cases flag with
                  | false =>
                      replace hm : m ∈ st2.visited := hm
                      rw [hv2] at hm
                      rcases Finset.mem_insert.mp hm with hm1 | hm2
                      · -- m itself was discovered here yet pruned:
                        -- impossible for a node passing every check
                        exfalso
                        obtain ⟨chg2, hfind2, hstat, hprop⟩ := hok
                        rw [hm1] at hfind2
                        rw [hfind] at hfind2
                        injection hfind2 with hchg2
                        subst hchg2
                        have hflag := (discover_core_spec env
                          g.containingIdentity change
                          ⟨insert u st.visited, st.va, st.idc⟩).2.2
                        rw [hd] at hflag
                        simp only at hflag
                        rw [discoverCore_eq, if_pos hstat] at hflag
                        have hpn := hprop st.va hinv
                        cases hp : st.va.proposeChange env.am
                            change.history.asBytes with
                        | mk va2 err =>
                            rw [hp] at hpn hflag
                            simp only at hpn
                            subst hpn
                            simp at hflag
                      · exact absurd hm2 hnm
                  | true =>
                      replace hm : m ∈ (visitList env g f (g.successors u)
                          st2).visited := hm
                      show chg.history.asBytes <:+:
                        (visitList env g f (g.successors u)
                          st2).va.validHistory
                      by_cases hum : m = u
                      · -- m is discovered at this very step and accepted
                        obtain ⟨chg2, hfind2, hstat, hprop⟩ := hok
                        rw [hum] at hfind2 hfindm
                        rw [hfind] at hfind2 hfindm
                        injection hfind2 with hchg2
                        injection hfindm with hchgm
                        subst hchg2
                        have hpn := hprop st.va hinv
                        cases hp : st.va.proposeChange env.am
                            change.history.asBytes with
                        | mk va2 err =>
                            rw [hp] at hpn
                            simp only at hpn
                            subst hpn
                            have hva2v : st2.va = va2 := by
                              rw [hva2, discoverCore_eq, if_pos hstat, hp]
                            have happ := proposeChange_none_append env.am
                              st.va change.history.asBytes (by simp [hp])
                            rw [hp] at happ
                            simp only at happ
                            obtain ⟨rest, hrest⟩ := ((visit_inv_extends env
                              g f).2 (g.successors u) st2 hinv2).2
                            rw [← hrest, hva2v, happ, ← hchgm]
                            exact ⟨st.va.validHistory, rest, by
                              simp [List.append_assoc]⟩
                      · have hnm2 : m ∉ st2.visited := by
                          rw [hv2]
                          intro hcm
                          rcases Finset.mem_insert.mp hcm with h1 | h2
                          · exact hum h1
                          · exact hnm h2
                        exact ih.2 (g.successors u) m chg st2 hinv2 hfindm
                          hok hnm2 hm
      refine ⟨hnode, ?_⟩
      intro l
      induction l with
      | nil =>
          intro m chg st hinv hfindm hok hnm hm
          rw [visitList] at hm
          exact absurd hm hnm
      | cons u rest ihl =>
          intro m chg st hinv hfindm hok hnm hm
          rw [visitList] at hm ⊢
          have hinv1 := ((visit_inv_extends env g (f + 1)).1 u st hinv).1
          by_cases hm1 : m ∈ (visitNode env g (f + 1) u st).visited
          · have hin := hnode u m chg st hinv hfindm hok hnm hm1
            have hpre := ((visit_inv_extends env g (f + 1)).2 rest
              (visitNode env g (f + 1) u st) hinv1).2
            exact hin.trans hpre.isInfix
          · exact ihl m chg (visitNode env g (f + 1) u st) hinv1 hfindm hok
              hm1 hm

/-- C5: pruning containment for `ChangeGraph::evaluate`.  (i) the produced
`History` is the evaluation state's valid history, which (ii) consists
exactly of the deltas of a chain of discovered changes each of which passes
the containing-identity, signature and authorization checks and had its
delta accepted — so a change failing any of those checks, or whose delta is
always rejected, contributes nothing; (iii) every discovered node is
reachable from the root through parents that are not always pruned — so a
change reachable only through a pruned change is never visited and
contributes nothing; (iv) a change reachable from the root through a path
of changes that pass every check in every document state is discovered,
and (v) its delta bytes appear in the resulting history. -/
theorem evaluate_pruning_containment (env : EvalEnv) (g : ChangeGraph)
    (idc0 : List (Nat × Identity)) (root : Nat) (rootChange : Change)
    (hwf : ∀ e ∈ g.edges, e.2 ∈ g.nodeKeys)
    (hroot : g.roots.head? = some root)
    (hrc : alistFind g.nodes root = some rootChange) :
    ((g.evaluate env idc0).map (fun r => r.1.history) =
      some (evalFinalState env g idc0 root).va.validHistoryH) ∧
    (∃ chain,
      ProvChain env g (evalFinalState env g idc0 root).visited chain ∧
      (evalFinalState env g idc0 root).va.validHistory =
        (chain.map (fun c => c.history.asBytes)).flatten) ∧
    (∀ v ∈ (evalFinalState env g idc0 root).visited,
      ReachClean env g root v) ∧
    (∀ m, ReachOk env g root m →
      m ∈ (evalFinalState env g idc0 root).visited) ∧
    (∀ m chg, ReachOk env g root m → alistFind g.nodes m = some chg →
      chg.history.asBytes <:+:
        (evalFinalState env g idc0 root).va.validHistory) := by
  have hinv0 : (ValidatedAutomerge.new env.am
      g.schemaChange.schema).FrontendInv env.am := rfl
  have hcard : (g.nodeKeys \ (∅ : Finset Nat)).card ≤ g.nodes.length := by
    rw [Finset.sdiff_empty]
    calc g.nodeKeys.card ≤ (g.nodes.map (fun p => p.1)).length :=
          List.toFinset_card_le _
      _ = g.nodes.length := List.length_map _ _
  have hrootkeys : root ∈ g.nodeKeys :=
    alistFind_mem_keys g.nodes root rootChange hrc
  have hcomplete := (visit_complete env g hwf g.nodes.length).1 root
    ⟨∅, ValidatedAutomerge.new env.am g.schemaChange.schema, idc0⟩ ∅
    hinv0 hcard
  have hmarkroot : root ∈ (evalFinalState env g idc0 root).visited :=
    hcomplete.1 hrootkeys
  have hclosed : ClosedExcept env g (evalFinalState env g idc0 root) ∅ :=
    hcomplete.2 (fun v hv => absurd hv (Finset.not_mem_empty v))
  have hvisited : ∀ m, ReachOk env g root m →
      m ∈ (evalFinalState env g idc0 root).visited := by
    intro m hm
    induction hm with
    | base h => exact hmarkroot
    | step hu hok hedge ihm =>
        rename_i u0 v0
        rcases hclosed u0 ihm hu.always v0
            ((ChangeGraph.mem_successors g u0 v0).mpr hedge) with h1 | h2
        · exact h1
        · exact absurd h2 (Finset.not_mem_empty v0)
  refine ⟨?_, ?_, ?_, hvisited, ?_⟩
  · simp [ChangeGraph.evaluate, hroot, hrc, evalFinalState]
  · have := (visit_provenance env g [] g.nodes.length).1 root
      ⟨∅, ValidatedAutomerge.new env.am g.schemaChange.schema, idc0⟩ hinv0
      ⟨[], fun c hc => absurd hc (List.not_mem_nil c), by
        simp [ValidatedAutomerge.new]⟩
    obtain ⟨chain, h1, h2⟩ := this
    exact ⟨chain, h1, by simpa using h2⟩
  · exact (visit_clean env g root g.nodes.length).1 root
      ⟨∅, ValidatedAutomerge.new env.am g.schemaChange.schema, idc0⟩ hinv0
      ReachClean.base (fun v hv => absurd hv (Finset.not_mem_empty v))
  · intro m chg hm hfind
    exact (visit_byte_run env g g.nodes.length).1 root m chg
      ⟨∅, ValidatedAutomerge.new env.am g.schemaChange.schema, idc0⟩ hinv0
      hfind hm.always (Finset.not_mem_empty m) (hvisited m hm)

/-- Witness for C5: the containment theorem applied to the concrete
one-node graph. -/
theorem evaluate_pruning_containment_witness :
    ((witGraph.evaluate witEvalEnv []).map (fun r => r.1.history) =
      some (evalFinalState witEvalEnv witGraph [] 1).va.validHistoryH) ∧
    (∃ chain,
      ProvChain witEvalEnv witGraph
        (evalFinalState witEvalEnv witGraph [] 1).visited chain ∧
      (evalFinalState witEvalEnv witGraph [] 1).va.validHistory =
        (chain.map (fun c => c.history.asBytes)).flatten) ∧
    (∀ v ∈ (evalFinalState witEvalEnv witGraph [] 1).visited,
      ReachClean witEvalEnv witGraph 1 v) ∧
    (∀ m, ReachOk witEvalEnv witGraph 1 m →
      m ∈ (evalFinalState witEvalEnv witGraph [] 1).visited) ∧
    (∀ m chg, ReachOk witEvalEnv witGraph 1 m →
      alistFind witGraph.nodes m = some chg →
      chg.history.asBytes <:+:
        (evalFinalState witEvalEnv witGraph [] 1).va.validHistory) :=
  evaluate_pruning_containment witEvalEnv witGraph [] 1 witRootChange
    (by simp [witGraph]) rfl rfl

/-- Seeding the builder from tips none of which parses as a `Change` leaves
the builder and worklist untouched (each failure is dropped with a
warning). -/
theorem changeGraphInitLoop_all_fail
    (loadChange : Repo → Nat → Except Unit Change) (repo : Repo)
    (tips : List Nat)
    (h : ∀ r ∈ tips, (repo.findCommit r).isSome = true ∧
      loadChange repo r = .error ()) :
    ∀ (b : GraphBuilder) (w : List (Nat × Nat)),
      changeGraphInitLoop loadChange repo tips b w = .ok (b, w) := by
  induction tips with
  | nil => intro b w; rfl
  | cons r rest ih =>
      intro b w
      obtain ⟨h1, h2⟩ := h r (by simp)
      cases hf : repo.findCommit r with
      | none => rw [hf] at h1; simp at h1
      | some c =>
          simp only [changeGraphInitLoop, hf, h2]
          exact ih (fun x hx => h x (by simp [hx])) b w

/-- A builder with no nodes builds to `Ok(None)`: "no such object" is a
normal empty result, not an error. -/
theorem graphBuilder_build_empty (env : EvalEnv)
    (loadSchemaChange : Nat → Except Unit SchemaChange)
    (b : GraphBuilder) (oid : Nat) (withinIdentity : Identity)
    (idc : List (Nat × Identity)) (hb : b.nodes = []) :
    GraphBuilder.build env loadSchemaChange b oid withinIdentity idc =
      (.ok none, idc) := by
  simp [GraphBuilder.build, GraphBuilder.firstExternal, hb]

/-- An empty worklist leaves the load loop's builder untouched. -/
theorem changeGraphLoadLoop_nil
    (loadChange : Repo → Nat → Except Unit Change) (repo : Repo)
    (fuel : Nat) (b : GraphBuilder) :
    changeGraphLoadLoop loadChange repo fuel b [] = b := by
  cases fuel <;> simp [changeGraphLoadLoop]

/-- Graph construction from tips none of which parses as a `Change`
returns successfully with no graph. -/
theorem changeGraphLoad_all_fail (env : EvalEnv)
    (loadChange : Repo → Nat → Except Unit Change)
    (loadSchemaChange : Nat → Except Unit SchemaChange)
    (idc : List (Nat × Identity)) (tips : List Nat) (repo : Repo)
    (withinIdentity : Identity) (oid : Nat)
    (h : ∀ r ∈ tips, (repo.findCommit r).isSome = true ∧
      loadChange repo r = .error ()) :
    ChangeGraph.load env loadChange loadSchemaChange idc tips repo
      withinIdentity oid = (.ok none, idc) := by
  unfold ChangeGraph.load
  rw [changeGraphInitLoop_all_fail loadChange repo tips h ⟨[], []⟩ []]
  simp only [changeGraphLoadLoop_nil]
  exact graphBuilder_build_empty env loadSchemaChange ⟨[], []⟩ oid
    withinIdentity idc rfl

/-- C8 counterexample: updating an object whose change graph is empty (no
references, nothing in the cache, empty repository) does not yield a
normal `None`/empty result — `update_object` returns the
`Update::NoSuchObject` **error**. -/
theorem updateObject_missing_object_is_error :
    (updateObject witEvalEnv freeLockCacheEnv (fun _ _ => .error ())
        (fun _ => .error ()) witSign witAuthor witWithin
        ⟨7, "t", none, .automerge [9]⟩ [] none true ⟨[], 0⟩
        (FileSystemCache.openOn [])).map (fun r => r.1) =
      some (.error .noSuchObject) := by
  rfl

/-- C8 amended: referencing an object whose change graph is empty is a
normal empty result for graph construction (`build` and
`ChangeGraph::load` return `Ok(None)`) and for `retrieve_object`
(`Ok(None)`); `update_object`, which must return the updated object,
instead fails with the typed `Update::NoSuchObject` error. -/
theorem missing_object_amended (env : EvalEnv) (cenv : CacheEnv)
    (loadChange : Repo → Nat → Except Unit Change)
    (loadSchemaChange : Nat → Except Unit SchemaChange)
    (sign : Nat → List (Nat × Nat)) (author : PersonData)
    (withinIdentity : Identity) (typename : String) (oid : Nat)
    (spec : UpdateObjectSpec) (repo : Repo) (cache : FileSystemCache)
    (refsList : List Nat) (b : GraphBuilder)
    (idc : List (Nat × Identity)) (localRef : Option Nat) (refsOk : Bool)
    (t : Nat)
    (hb : b.nodes = [])
    (htips : ∀ r ∈ refsList, (repo.findCommit r).isSome = true ∧
      loadChange repo r = .error ())
    (hlock : acquireLock cenv.lockAvail = .ok t)
    (hmiss : alistFind cache.disk oid = none)
    (hmiss2 : alistFind cache.disk spec.objectId = none) :
    GraphBuilder.build env loadSchemaChange b oid withinIdentity idc =
      (.ok none, idc) ∧
    ChangeGraph.load env loadChange loadSchemaChange idc refsList repo
      withinIdentity oid = (.ok none, idc) ∧
    retrieveObject env cenv loadChange loadSchemaChange refsList repo
      withinIdentity typename oid cache = some (.ok none, cache) ∧
    updateObject env cenv loadChange loadSchemaChange sign author
      withinIdentity spec refsList localRef refsOk repo cache =
      some (.error .noSuchObject, repo, cache) := by
  have hall : refsList.all (fun r => (repo.findCommit r).isSome) = true :=
    List.all_eq_true.mpr (fun r hr => (htips r hr).1)
  have hload : ∀ idc2 oid2, ChangeGraph.load env loadChange
      loadSchemaChange idc2 refsList repo withinIdentity oid2 =
      (.ok none, idc2) :=
    fun idc2 oid2 => changeGraphLoad_all_fail env loadChange
      loadSchemaChange idc2 refsList repo withinIdentity oid2 htips
  have hcl : ∀ oid2, alistFind cache.disk oid2 = none →
      cacheLoad cenv cache oid2 refsList.toFinset = (.ok none, cache) := by
    intro oid2 hm
    simp [cacheLoad, hlock, hm]
  refine ⟨graphBuilder_build_empty env loadSchemaChange b oid
    withinIdentity idc hb, hload idc oid, ?_, ?_⟩
  · simp only [retrieveObject, hall, Bool.not_true, Bool.false_eq_true,
      if_false, hcl oid hmiss, hload [] oid]
  · simp only [updateObject, hall, Bool.not_true, Bool.false_eq_true,
      if_false, hcl spec.objectId hmiss2, hload [] spec.objectId]

/-- Witness for C8's amended claim: the concrete empty scenario of the
counterexample, where retrieve yields `Ok(None)` and update yields the
`NoSuchObject` error. -/
theorem missing_object_amended_witness :
    GraphBuilder.build witEvalEnv (fun _ => .error ()) ⟨[], []⟩ 7
      witWithin [] = (.ok none, []) ∧
    ChangeGraph.load witEvalEnv (fun _ _ => .error ())
      (fun _ => .error ()) [] [] ⟨[], 0⟩ witWithin 7 = (.ok none, []) ∧
    retrieveObject witEvalEnv freeLockCacheEnv (fun _ _ => .error ())
      (fun _ => .error ()) [] ⟨[], 0⟩ witWithin "t" 7
      (FileSystemCache.openOn []) =
      some (.ok none, FileSystemCache.openOn []) ∧
    updateObject witEvalEnv freeLockCacheEnv (fun _ _ => .error ())
      (fun _ => .error ()) witSign witAuthor witWithin
      ⟨7, "t", none, .automerge [9]⟩ [] none true ⟨[], 0⟩
      (FileSystemCache.openOn []) =
      some (.error .noSuchObject, ⟨[], 0⟩, FileSystemCache.openOn []) :=
  missing_object_amended witEvalEnv freeLockCacheEnv (fun _ _ => .error ())
    (fun _ => .error ()) witSign witAuthor witWithin "t" 7
    ⟨7, "t", none, .automerge [9]⟩ ⟨[], 0⟩ (FileSystemCache.openOn [])
    [] ⟨[], []⟩ [] none true 0 rfl (by simp) rfl rfl rfl

end Cob
